import Mathlib

/-!
Verification development for the JSON-to-relational staging engine
(Open Targets MCP server).  The TypeScript sources are shallowly embedded:
JavaScript strings are modelled as `List Char` (one element per UTF-16 code
unit), JSON payloads as the inductive `JValue`, the SQLite chunk tables as
explicit record lists, and the random / platform-dependent inputs
(`Math.random` suffixes, `crypto.randomUUID` content ids, gzip
compression, `JSON.parse`) as explicit parameters.  Every definition is
translated from the corresponding function in `src/do.ts`,
`src/lib/SchemaInferenceEngine.ts`, `src/lib/DataInsertionEngine.ts` or the
ChunkingEngine source, keeping the source names.
-/

namespace OTMS

/-- JavaScript string, one `Char` per UTF-16 code unit (BMP fragment). -/
abbrev JStr := List Char

/-- ASCII fragment of JavaScript `toLowerCase` on a single code unit
(code points 65-90 shift by 32). -/
def lowerChar (c : Char) : Char :=
  if 65 ≤ c.toNat ∧ c.toNat ≤ 90 then Char.ofNat (c.toNat + 32) else c

/-- JavaScript `String.prototype.toLowerCase` (ASCII fragment). -/
def toLowerJS (s : JStr) : JStr := s.map lowerChar

/-- Regex `\w` class: `[A-Za-z0-9_]` (codes 97-122, 65-90, 48-57, 95). -/
def isWordChar (c : Char) : Bool :=
  (97 ≤ c.toNat && c.toNat ≤ 122) || (65 ≤ c.toNat && c.toNat ≤ 90) ||
  (48 ≤ c.toNat && c.toNat ≤ 57) || c.toNat = 95

/-- Regex `\s` class restricted to ASCII whitespace (space, tab, LF, VT, FF, CR). -/
def isSpaceJS (c : Char) : Bool :=
  c = ' ' || c = Char.ofNat 9 || c = Char.ofNat 10 ||
  c = Char.ofNat 11 || c = Char.ofNat 12 || c = Char.ofNat 13

/-- JavaScript `String.prototype.trim` (ASCII whitespace fragment). -/
def trimJS (s : JStr) : JStr :=
  ((s.dropWhile isSpaceJS).reverse.dropWhile isSpaceJS).reverse

/-- Exact prefix test, `s.startsWith(pat)`. -/
def startsWithJ : JStr → JStr → Bool
  | _, [] => true
  | [], _ :: _ => false
  | c :: cs, p :: ps => c = p && startsWithJ cs ps

/-- Substring test, `s.includes(pat)`. -/
def containsSub : JStr → JStr → Bool
  | [], pat => pat.isEmpty
  | c :: rest, pat => startsWithJ (c :: rest) pat || containsSub rest pat

/-- Case-insensitive prefix test (regex literal under the `i` flag). -/
def startsWithCI : JStr → JStr → Bool
  | _, [] => true
  | [], _ :: _ => false
  | c :: cs, p :: ps => lowerChar c = lowerChar p && startsWithCI cs ps

/-!
Tiny regex interpreter sufficient for the eight blocked patterns of
`validateAnalyticalSql` (src/do.ts lines 220-229).  A pattern is a function
from the input suffix to the list of possible remainders after a match;
an empty list means the pattern cannot match here.  This models
backtracking exactly: `rSeq` tries every split produced by the left part.
-/

/-- Backtracking matcher: possible remainders of the input after a match. -/
def RegEx := JStr → List JStr

/-- Case-insensitive literal. -/
def rLit (pat : JStr) : RegEx := fun cs =>
  if startsWithCI cs pat then [cs.drop pat.length] else []

/-- One-or-more repetition of a character class (`\s+`, `\w+`), every split. -/
def rMany1 (f : Char → Bool) : JStr → List JStr
  | [] => []
  | c :: rest => if f c then rest :: rMany1 f rest else []

/-- Sequencing with backtracking. -/
def rSeq (p q : RegEx) : RegEx := fun cs => (p cs).flatMap q

/-- Negative lookahead `(?!a|b)`: succeeds consuming nothing. -/
def rNotAhead (pats : List JStr) : RegEx := fun cs =>
  if pats.any (fun p => startsWithCI cs p) then [] else [cs]

/-- Whether the pattern matches starting exactly here. -/
def rMatch (p : RegEx) (cs : JStr) : Bool := !(p cs).isEmpty

/-- Scan for a match at any position preceded by a word boundary; `prev`
records whether the previous character was a word character.  All eight
blocked patterns begin with `\b` followed by a word character, so the
boundary holds exactly when the previous character is not a word character
(or we are at the start). -/
def regexTestAux (p : RegEx) : Bool → JStr → Bool
  | _, [] => false
  | prev, c :: rest => (!prev && rMatch p (c :: rest)) || regexTestAux p (isWordChar c) rest

/-- JavaScript `pattern.test(s)` for the patterns used by the SQL gate. -/
def regexTest (p : RegEx) (s : JStr) : Bool := regexTestAux p false s

/-- Pattern `\s+`. -/
def wsR : RegEx := fun cs => rMany1 isSpaceJS cs

/-- Pattern `\w+`. -/
def wordR : RegEx := fun cs => rMany1 isWordChar cs

/-- Lookahead `(?!temp|temporary)`. -/
def notTempR : RegEx := rNotAhead ["temp".toList, "temporary".toList]

/-- Regex `\bdrop\s+table\s+(?!temp|temporary)` with `i` flag. -/
def patDropTable : RegEx :=
  rSeq (rLit "drop".toList) (rSeq wsR (rSeq (rLit "table".toList) (rSeq wsR notTempR)))

/-- Regex `\bdelete\s+from` with `i` flag. -/
def patDeleteFrom : RegEx :=
  rSeq (rLit "delete".toList) (rSeq wsR (rLit "from".toList))

/-- Regex `\bupdate\s+\w+\s+set` with `i` flag. -/
def patUpdateSet : RegEx :=
  rSeq (rLit "update".toList) (rSeq wsR (rSeq wordR (rSeq wsR (rLit "set".toList))))

/-- Regex `\binsert\s+into\s+(?!temp|temporary)` with `i` flag. -/
def patInsertInto : RegEx :=
  rSeq (rLit "insert".toList) (rSeq wsR (rSeq (rLit "into".toList) (rSeq wsR notTempR)))

/-- Regex `\balter\s+table` with `i` flag. -/
def patAlterTable : RegEx :=
  rSeq (rLit "alter".toList) (rSeq wsR (rLit "table".toList))

/-- Regex `\bcreate\s+table\s+(?!temp|temporary)` with `i` flag. -/
def patCreateTable : RegEx :=
  rSeq (rLit "create".toList) (rSeq wsR (rSeq (rLit "table".toList) (rSeq wsR notTempR)))

/-- Regex `\battach\s+database` with `i` flag. -/
def patAttachDatabase : RegEx :=
  rSeq (rLit "attach".toList) (rSeq wsR (rLit "database".toList))

/-- Regex `\bdetach\s+database` with `i` flag. -/
def patDetachDatabase : RegEx :=
  rSeq (rLit "detach".toList) (rSeq wsR (rLit "database".toList))

/-- The `blockedPatterns` array of `validateAnalyticalSql`. -/
def blockedPatterns : List RegEx :=
  [patDropTable, patDeleteFrom, patUpdateSet, patInsertInto,
   patAlterTable, patCreateTable, patAttachDatabase, patDetachDatabase]

/-- The `allowedStarters` array of `validateAnalyticalSql`. -/
def allowedStarters : List JStr :=
  ["select", "with", "pragma", "explain",
   "create temporary table", "create temp table",
   "create view", "create temporary view", "create temp view",
   "drop view", "drop temporary table", "drop temp table"].map String.toList

/-- Result record of `validateAnalyticalSql`. -/
structure ValidationResult where
  isValid : Bool
  error : Option String
  queryType : Option String
  deriving Repr, DecidableEq

/-- Translation of `JsonToSqlDO.validateAnalyticalSql` (src/do.ts 200-261).
The error strings are abbreviated; only their presence matters. -/
def validateAnalyticalSql (sql : JStr) : ValidationResult :=
  let trimmedSql := toLowerJS (trimJS sql)
  let startsWithAllowed := allowedStarters.any (fun starter => startsWithJ trimmedSql starter)
  if !startsWithAllowed then
    { isValid := false, error := some "Query type not allowed", queryType := none }
  else if blockedPatterns.any (fun pat => regexTest pat sql) then
    { isValid := false, error := some "Operation blocked for security", queryType := none }
  else
    let queryType :=
      if startsWithJ trimmedSql "with".toList then "cte"
      else if startsWithJ trimmedSql "pragma".toList then "pragma"
      else if startsWithJ trimmedSql "explain".toList then "explain"
      else if containsSub trimmedSql "create".toList then "create_temp"
      else "select"
    { isValid := true, error := none, queryType := some queryType }

/-- Outcome of handing a statement to the embedded SQL engine: either rows
and a new storage state, or a raised runtime error (also with the state it
left behind). -/
inductive EngineOutcome (σ ρ : Type) where
  | ok (rows : ρ) (st : σ)
  | raise (msg : String) (st : σ)

/-- Shape of the value returned by `executeSql`. -/
structure QueryResponse (ρ : Type) where
  success : Bool
  results : Option ρ
  error : Option String
  queryType : Option String

/-- Translation of `JsonToSqlDO.executeSql` (src/do.ts 56-82).  The embedded
SQL engine is a parameter `engine`; when validation fails the code throws
before touching `this.ctx.storage.sql`, and the catch block returns
a failure response, so the state is returned unchanged. -/
def executeSql {σ ρ : Type} (engine : σ → JStr → EngineOutcome σ ρ) (st : σ)
    (sqlQuery : JStr) : QueryResponse ρ × σ :=
  let v := validateAnalyticalSql sqlQuery
  if v.isValid then
    match engine st sqlQuery with
    | .ok rows st' =>
        ({ success := true, results := some rows, error := none, queryType := v.queryType }, st')
    | .raise m st' =>
        ({ success := false, results := none, error := some m, queryType := none }, st')
  else
    ({ success := false, results := none, error := v.error, queryType := none }, st)

/-- Rejection condition of the gate: the trimmed, lowercased query starts
with no allowed starter, or the raw query matches a blocked pattern. -/
def gateRejects (q : JStr) : Prop :=
  ¬ (allowedStarters.any (fun s => startsWithJ (toLowerJS (trimJS q)) s) = true)
  ∨ blockedPatterns.any (fun pat => regexTest pat q) = true

instance (q : JStr) : Decidable (gateRejects q) := by
  unfold gateRejects; infer_instance

/-- C1: a query rejected by the analytic-SQL gate (wrong starter or blocked
pattern) yields a failure response carrying an error, with the storage
state unchanged and the engine never consulted; any other query is handed
to the SQL engine. -/
theorem C1_sql_gate_validation {σ ρ : Type} (engine : σ → JStr → EngineOutcome σ ρ)
    (st : σ) (q : JStr) :
    (gateRejects q →
      (executeSql engine st q).1.success = false
      ∧ (executeSql engine st q).1.error.isSome = true
      ∧ (executeSql engine st q).2 = st)
    ∧ (¬ gateRejects q →
      executeSql engine st q =
        match engine st q with
        | .ok rows st' =>
            ({ success := true, results := some rows, error := none,
               queryType := (validateAnalyticalSql q).queryType }, st')
        | .raise m st' =>
            ({ success := false, results := none, error := some m, queryType := none }, st')) := by
  unfold gateRejects
  by_cases h1 : allowedStarters.any (fun s => startsWithJ (toLowerJS (trimJS q)) s) = true
  · by_cases h2 : blockedPatterns.any (fun pat => regexTest pat q) = true
    · refine ⟨fun _ => ?_, fun hc => absurd (Or.inr h2) hc⟩
      simp [executeSql, validateAnalyticalSql, h1, h2]
    · refine ⟨fun hc => ?_, fun _ => ?_⟩
      · rcases hc with hc | hc
        · exact absurd h1 hc
        · exact absurd hc h2
      · simp only [executeSql, validateAnalyticalSql, h1, Bool.not_true,
          Bool.false_eq_true, if_false, h2]
        simp [Bool.not_eq_true] at h2
        simp [h2]
  · refine ⟨fun _ => ?_, fun hc => absurd (Or.inl h1) hc⟩
    simp [executeSql, validateAnalyticalSql, h1]

/-- Witness for C1 at the concrete rejected query `DROP TABLE foo` (both a
disallowed starter and a blocked pattern) with a trivial engine. -/
theorem C1_sql_gate_validation_witness :
    gateRejects "DROP TABLE foo".toList
    ∧ ((executeSql (fun (st : Unit) (_ : JStr) => EngineOutcome.raise (ρ := Unit) "x" st)
          () "DROP TABLE foo".toList).1.success = false
      ∧ (executeSql (fun (st : Unit) (_ : JStr) => EngineOutcome.raise (ρ := Unit) "x" st)
          () "DROP TABLE foo".toList).1.error.isSome = true
      ∧ (executeSql (fun (st : Unit) (_ : JStr) => EngineOutcome.raise (ρ := Unit) "x" st)
          () "DROP TABLE foo".toList).2 = ()) :=
  ⟨by decide,
   (C1_sql_gate_validation (fun (st : Unit) (_ : JStr) => EngineOutcome.raise (ρ := Unit) "x" st)
      () "DROP TABLE foo".toList).1 (by decide)⟩

/-!
JSON payload model.  JavaScript numbers are modelled as rationals so that
`Number.isInteger` becomes a denominator test; `jundef` models `undefined`.
-/

/-- A JavaScript/JSON value as the engines see it. -/
inductive JValue where
  | jnull
  | jundef
  | jbool (b : Bool)
  | jnum (q : ℚ)
  | jstr (s : JStr)
  | jarr (elems : List JValue)
  | jobj (fields : List (JStr × JValue))

/-- Property access `obj[key]`, `undefined` when the key is absent or the
value is not an object. -/
def objGet (v : JValue) (key : JStr) : JValue :=
  match v with
  | .jobj fields =>
      match fields.find? (fun f => f.1 == key) with
      | some f => f.2
      | none => .jundef
  | _ => (.jundef)

/-- JavaScript truthiness (`NaN` is not modelled; `jnum` follows `q ≠ 0`). -/
def truthy : JValue → Bool
  | .jnull => false
  | .jundef => false
  | .jbool b => b
  | .jnum q => q ≠ 0
  | .jstr s => !s.isEmpty
  | .jarr _ => true
  | .jobj _ => true

/-!
ChunkingEngine (the unnamed source file `src/unnamed/part_002`).  The two
SQLite tables `content_chunks` and `chunk_metadata` are modelled as record
lists inside `ChunkStore`; `crypto.randomUUID` content ids, the platform
gzip (`CompressionStream`) and `JSON.parse` are explicit parameters.
-/

/-- Constant `CHUNK_SIZE_THRESHOLD = 32 * 1024`. -/
def CHUNK_SIZE_THRESHOLD : Nat := 32 * 1024

/-- Constant `CHUNK_SIZE = 16 * 1024`. -/
def CHUNK_SIZE : Nat := 16 * 1024

/-- Feature flag `ENABLE_COMPRESSION = true`. -/
def ENABLE_COMPRESSION : Bool := true

/-- Method `shouldChunk`: content longer than the 32 KiB threshold. -/
def shouldChunk (content : JStr) : Bool :=
  CHUNK_SIZE_THRESHOLD < content.length

/-- Method `shouldCompress`: content longer than 8192 code units. -/
def shouldCompress (content : JStr) : Bool :=
  8192 < content.length

/-- One row of the `content_chunks` table. -/
structure ChunkRecord where
  content_id : JStr
  chunk_index : Nat
  chunk_data : JStr
  chunk_size : Nat
  deriving DecidableEq

/-- One row of the `chunk_metadata` table (also the `ChunkMetadata`
interface returned by `storeChunkedContent`). -/
structure ChunkMetadata where
  contentId : JStr
  totalChunks : Nat
  originalSize : Nat
  contentType : String
  compressed : Bool
  encoding : Option String
  deriving DecidableEq

/-- The persistent chunk state: both tables, rows in insertion order. -/
structure ChunkStore where
  chunks : List ChunkRecord
  metadata : List ChunkMetadata
  deriving DecidableEq

/-- Method `splitIntoChunks`: slice the content into `CHUNK_SIZE` pieces. -/
def splitIntoChunks (content : JStr) : List JStr :=
  match content with
  | [] => []
  | c :: rest => ((c :: rest).take CHUNK_SIZE) :: splitIntoChunks ((c :: rest).drop CHUNK_SIZE)
termination_by content.length
decreasing_by simp [CHUNK_SIZE]; omega

/-- The chunk records written by the storage loop of `storeChunkedContent`:
record `i` carries `chunk_index = start + i` and `chunk_size` equal to the
slice length. -/
def mkChunkRecords (cid : JStr) : List JStr → Nat → List ChunkRecord
  | [], _ => []
  | c :: rest, i => ⟨cid, i, c, c.length⟩ :: mkChunkRecords cid rest (i + 1)

/-- The compression step at the top of `storeChunkedContent`: when
compression is enabled and worthwhile by size, try `compress`; a failure
(the catch block) falls back to the original content.  Returns the
processed content and the `compressed` flag.  There is no check that the
compressed form is smaller. -/
def processedOf (compressFn : JStr → Option JStr) (content : JStr) : JStr × Bool :=
  if ENABLE_COMPRESSION && shouldCompress content then
    match compressFn content with
    | some compressedContent => (compressedContent, true)
    | none => (content, false)
  else (content, false)

/-- Method `storeChunkedContent`: split the (possibly compressed) content,
append one chunk record per slice and then the metadata record, and return
the metadata (whose `contentId` feeds the `__CHUNKED__:` reference). -/
def storeChunkedContent (compressFn : JStr → Option JStr) (contentId : JStr)
    (content : JStr) (contentType : String) (st : ChunkStore) :
    ChunkMetadata × ChunkStore :=
  let pc := processedOf compressFn content
  let chunks := splitIntoChunks pc.1
  let metadata : ChunkMetadata :=
    { contentId := contentId, totalChunks := chunks.length,
      originalSize := content.length, contentType := contentType,
      compressed := pc.2, encoding := if pc.2 then some "gzip" else none }
  (metadata,
   { chunks := st.chunks ++ mkChunkRecords contentId chunks 0,
     metadata := st.metadata ++ [metadata] })

/-- Method `getMetadata`: `SELECT * FROM chunk_metadata WHERE content_id = ?`. -/
def getMetadata (contentId : JStr) (st : ChunkStore) : Option ChunkMetadata :=
  st.metadata.find? (fun m => m.contentId == contentId)

/-- Insertion into a list kept ordered by `chunk_index` (helper for the
`ORDER BY chunk_index ASC` of `getChunks`). -/
def insertByIndex (r : ChunkRecord) : List ChunkRecord → List ChunkRecord
  | [] => [r]
  | x :: xs => if r.chunk_index ≤ x.chunk_index then r :: x :: xs else x :: insertByIndex r xs

/-- Stable sort by `chunk_index` (the `ORDER BY chunk_index ASC`). -/
def sortByIndex (l : List ChunkRecord) : List ChunkRecord :=
  l.foldr insertByIndex []

/-- Method `getChunks`: the `chunk_data` of all rows with this content id,
ordered by `chunk_index`. -/
def getChunks (contentId : JStr) (st : ChunkStore) : List JStr :=
  (sortByIndex (st.chunks.filter (fun r => r.content_id == contentId))).map
    (fun r => r.chunk_data)

/-- Method `retrieveChunkedContent`.  Every raised error — including the
`Missing chunks` error thrown when the chunk count disagrees with the
metadata, and a decompression failure — is swallowed by the surrounding
`try/catch`, which returns `null`; hence the `Option` result with `none`
for all failure modes. -/
def retrieveChunkedContent (decompressFn : JStr → Option JStr) (contentId : JStr)
    (st : ChunkStore) : Option JStr :=
  match getMetadata contentId st with
  | none => none
  | some metadata =>
    let chunks := getChunks contentId st
    if chunks.length ≠ metadata.totalChunks then none
    else
      let reassembled := chunks.flatten
      if metadata.compressed then decompressFn reassembled
      else some reassembled

/-- The literal `__CHUNKED__:` prefix of content-reference tokens. -/
def chunkRefTag : JStr := "__CHUNKED__:".toList

/-- Method `createContentReference`. -/
def createContentReference (metadata : ChunkMetadata) : JStr :=
  chunkRefTag ++ metadata.contentId

/-- Method `isContentReference`: a string value starting with the tag. -/
def isContentReference : JValue → Bool
  | .jstr s => startsWithJ s chunkRefTag
  | _ => false

/-- JavaScript `s.replace(pat, '')` for a plain-string pattern: removes the
first occurrence only (used by `extractContentId`). -/
def removeFirst (pat : JStr) : JStr → JStr
  | [] => []
  | c :: rest =>
    if startsWithJ (c :: rest) pat then (c :: rest).drop pat.length
    else c :: removeFirst pat rest

/-- Method `extractContentId`. -/
def extractContentId (reference : JStr) : JStr :=
  removeFirst chunkRefTag reference

/-- The per-cell body of `resolveChunkedContentInResults`
(src/do.ts 124-150): resolve reference tokens, JSON-parse the
reconstituted text when possible, and substitute the
`CHUNKED_CONTENT_NOT_FOUND` sentinel when retrieval yields `null`.  The
`CHUNKED_CONTENT_ERROR` branch corresponds to a raised exception, which
`retrieveChunkedContent` never produces (it catches internally), so it has
no counterpart here. -/
def resolveCell (jsonParse : JStr → Option JValue) (decompressFn : JStr → Option JStr)
    (st : ChunkStore) (value : JValue) : JValue :=
  if isContentReference value then
    match value with
    | .jstr s =>
      let contentId := extractContentId s
      match retrieveChunkedContent decompressFn contentId st with
      | some resolvedContent =>
          match jsonParse resolvedContent with
          | some parsed => parsed
          | none => .jstr resolvedContent
      | none => .jstr ("[CHUNKED_CONTENT_NOT_FOUND:".toList ++ contentId ++ "]".toList)
    | _ => value
  else value

/-- Reassembling the slices recovers the sliced content. -/
theorem flatten_splitIntoChunks (l : JStr) : (splitIntoChunks l).flatten = l := by
  induction l using splitIntoChunks.induct with
  | case1 => simp [splitIntoChunks]
  | case2 c rest ih =>
    rw [splitIntoChunks]
    simp only [List.flatten_cons, ih, List.take_append_drop]

/-- The number of slices is the length divided by `CHUNK_SIZE`, rounded up. -/
theorem length_splitIntoChunks (l : JStr) :
    (splitIntoChunks l).length = (l.length + (CHUNK_SIZE - 1)) / CHUNK_SIZE := by
  induction l using splitIntoChunks.induct with
  | case1 => simp [splitIntoChunks, CHUNK_SIZE]
  | case2 c rest ih =>
    rw [splitIntoChunks]
    simp only [List.length_cons, ih, List.length_drop]
    simp only [CHUNK_SIZE] at *
    omega

/-- Every slice except possibly the last is exactly `CHUNK_SIZE` long. -/
theorem dropLast_splitIntoChunks (l : JStr) :
    ∀ ch ∈ (splitIntoChunks l).dropLast, ch.length = CHUNK_SIZE := by
  induction l using splitIntoChunks.induct with
  | case1 => simp [splitIntoChunks]
  | case2 c rest ih =>
    rw [splitIntoChunks]
    intro ch hch
    rcases h : splitIntoChunks ((c :: rest).drop CHUNK_SIZE) with _ | ⟨x, xs⟩
    · rw [h] at hch; simp at hch
    · rw [h] at hch
      simp only [List.dropLast_cons_of_ne_nil (by simp : (x :: xs) ≠ [])] at hch
      rcases List.mem_cons.mp hch with rfl | hmem
      · have hne : (c :: rest).drop CHUNK_SIZE ≠ [] := by
          intro hemp; rw [hemp] at h; simp [splitIntoChunks] at h
        have hlt : CHUNK_SIZE < (c :: rest).length := by
          by_contra hle
          push_neg at hle
          exact hne (List.drop_eq_nil_of_le hle)
        rw [List.length_take]
        exact Nat.min_eq_left (Nat.le_of_lt hlt)
      · exact ih ch (by rw [h]; exact hmem)

/-- Data projection of the generated chunk records. -/
theorem map_data_mkChunkRecords (cid : JStr) (chunks : List JStr) (i : Nat) :
    (mkChunkRecords cid chunks i).map (fun r => r.chunk_data) = chunks := by
  induction chunks generalizing i with
  | nil => simp [mkChunkRecords]
  | cons c rest ih => simp [mkChunkRecords, ih]

/-- Index projection of the generated chunk records: a contiguous range. -/
theorem map_index_mkChunkRecords (cid : JStr) (chunks : List JStr) (i : Nat) :
    (mkChunkRecords cid chunks i).map (fun r => r.chunk_index) =
      List.range' i chunks.length := by
  induction chunks generalizing i with
  | nil => simp [mkChunkRecords]
  | cons c rest ih => simp [mkChunkRecords, ih, List.range'_succ]

/-- All generated chunk records carry the given content id. -/
theorem cid_mkChunkRecords (cid : JStr) (chunks : List JStr) (i : Nat) :
    ∀ r ∈ mkChunkRecords cid chunks i, r.content_id = cid := by
  induction chunks generalizing i with
  | nil => simp [mkChunkRecords]
  | cons c rest ih =>
    intro r hr
    rcases List.mem_cons.mp hr with rfl | hr
    · rfl
    · exact ih (i + 1) r hr

/-- Each generated record's `chunk_size` is its data length. -/
theorem size_mkChunkRecords (cid : JStr) (chunks : List JStr) (i : Nat) :
    ∀ r ∈ mkChunkRecords cid chunks i, r.chunk_size = r.chunk_data.length := by
  induction chunks generalizing i with
  | nil => simp [mkChunkRecords]
  | cons c rest ih =>
    intro r hr
    rcases List.mem_cons.mp hr with rfl | hr
    · rfl
    · exact ih (i + 1) r hr

/-- The generated chunk records are sorted by index. -/
theorem chain_mkChunkRecords (cid : JStr) (chunks : List JStr) (i : Nat) :
    List.Chain' (fun a b => a.chunk_index ≤ b.chunk_index)
      (mkChunkRecords cid chunks i) := by
  induction chunks generalizing i with
  | nil => simp [mkChunkRecords]
  | cons c rest ih =>
    cases rest with
    | nil => simp [mkChunkRecords]
    | cons c2 r2 =>
      rw [mkChunkRecords, mkChunkRecords]
      exact List.Chain'.cons (by simp) (by rw [← mkChunkRecords]; exact ih (i + 1))

/-- Sorting an index-sorted list is the identity. -/
theorem sortByIndex_eq_self (l : List ChunkRecord)
    (h : List.Chain' (fun a b => a.chunk_index ≤ b.chunk_index) l) :
    sortByIndex l = l := by
  induction l with
  | nil => rfl
  | cons x xs ih =>
    have htail : sortByIndex xs = xs := ih h.tail
    show insertByIndex x (sortByIndex xs) = x :: xs
    rw [htail]
    cases xs with
    | nil => rfl
    | cons y ys =>
      have hxy : x.chunk_index ≤ y.chunk_index := (List.chain'_cons.mp h).1
      simp [insertByIndex, hxy]

/-- After a store under a fresh content id, the metadata lookup returns
exactly the metadata record the store produced. -/
theorem getMetadata_store (compressFn : JStr → Option JStr) (cid content : JStr)
    (ct : String) (st : ChunkStore)
    (hfm : ∀ m ∈ st.metadata, m.contentId ≠ cid) :
    getMetadata cid (storeChunkedContent compressFn cid content ct st).2 =
      some (storeChunkedContent compressFn cid content ct st).1 := by
  unfold getMetadata storeChunkedContent
  simp only [List.find?_append]
  have h1 : st.metadata.find? (fun m => m.contentId == cid) = none :=
    List.find?_eq_none.mpr (fun m hm => by
      simp only [beq_iff_eq]
      exact fun h => hfm m hm h)
  simp [h1]

/-- After a store under a fresh content id, the chunk fetch returns exactly
the slices of the processed content, in order. -/
theorem getChunks_store (compressFn : JStr → Option JStr) (cid content : JStr)
    (ct : String) (st : ChunkStore)
    (hfc : ∀ r ∈ st.chunks, r.content_id ≠ cid) :
    getChunks cid (storeChunkedContent compressFn cid content ct st).2 =
      splitIntoChunks (processedOf compressFn content).1 := by
  unfold getChunks storeChunkedContent
  simp only [List.filter_append]
  have h1 : st.chunks.filter (fun r => r.content_id == cid) = [] :=
    List.filter_eq_nil_iff.mpr (fun r hr => by
      simp only [beq_iff_eq]
      exact fun h => hfc r hr h)
  have h2 : (mkChunkRecords cid (splitIntoChunks (processedOf compressFn content).1) 0).filter
      (fun r => r.content_id == cid) =
      mkChunkRecords cid (splitIntoChunks (processedOf compressFn content).1) 0 :=
    List.filter_eq_self.mpr (fun r hr => by
      simp only [beq_iff_eq]
      exact cid_mkChunkRecords _ _ _ r hr)
  rw [h1, h2, List.nil_append,
    sortByIndex_eq_self _ (chain_mkChunkRecords cid _ 0),
    map_data_mkChunkRecords]

/-- C2: round-trip of the chunk store.  Storing a text longer than
`CHUNK_SIZE_THRESHOLD` under a fresh content id and retrieving that id
yields exactly the original text, provided the platform decompressor
inverts the platform compressor (the gzip contract). -/
theorem C2_chunk_store_roundtrip (compressFn decompressFn : JStr → Option JStr)
    (cid content : JStr) (ct : String) (st : ChunkStore)
    (hinv : ∀ s c, compressFn s = some c → decompressFn c = some s)
    (hfc : ∀ r ∈ st.chunks, r.content_id ≠ cid)
    (hfm : ∀ m ∈ st.metadata, m.contentId ≠ cid)
    (hlen : CHUNK_SIZE_THRESHOLD < content.length) :
    retrieveChunkedContent decompressFn cid
      (storeChunkedContent compressFn cid content ct st).2 = some content := by
  have hm := getMetadata_store compressFn cid content ct st hfm
  have hc := getChunks_store compressFn cid content ct st hfc
  unfold retrieveChunkedContent
  rw [hm]
  simp only [hc, flatten_splitIntoChunks]
  have hlenEq : (splitIntoChunks (processedOf compressFn content).1).length =
      (storeChunkedContent compressFn cid content ct st).1.totalChunks := by
    simp [storeChunkedContent]
  simp only [hlenEq, ne_eq, not_true_eq_false, if_false]
  have hflag : (storeChunkedContent compressFn cid content ct st).1.compressed =
      (processedOf compressFn content).2 := by
    simp [storeChunkedContent]
  rw [hflag]
  unfold processedOf
  by_cases hcmp : (ENABLE_COMPRESSION && shouldCompress content) = true
  · rw [if_pos hcmp]
    cases hcf : compressFn content with
    | none => simp
    | some c => simp [hinv content c hcf]
  · rw [if_neg hcmp]
    simp

/-- Witness for C2: a 32769-character text stored into an empty store with
an always-failing compressor round-trips. -/
theorem C2_chunk_store_roundtrip_witness :
    retrieveChunkedContent (fun _ => none) "c1".toList
      (storeChunkedContent (fun _ => none) "c1".toList
        (List.replicate 32769 'a') "text" ⟨[], []⟩).2 =
      some (List.replicate 32769 'a') :=
  C2_chunk_store_roundtrip (fun _ => none) (fun _ => none) "c1".toList
    (List.replicate 32769 'a') "text" ⟨[], []⟩
    (fun _ _ h => by cases h)
    (fun r hr => by cases hr)
    (fun m hm => by cases hm)
    (by rw [List.length_replicate]; decide)

/-- C10: a store call appends exactly `ceil(len(p)/CHUNK_SIZE)` chunk
records for the processed content `p`, with contiguous indices `0,…,n-1`,
every non-final chunk of exactly `CHUNK_SIZE` units, `chunk_size` equal to
each slice's length, and a metadata record whose `total_chunks` is that
count and whose `original_size` is the length of the original string in
code units; the returned state (from which the reference token is built)
already contains all chunk records and the metadata record. -/
theorem C10_store_chunk_layout (compressFn : JStr → Option JStr) (cid content : JStr)
    (ct : String) (st : ChunkStore) :
    letI p := (processedOf compressFn content).1
    letI recs := mkChunkRecords cid (splitIntoChunks p) 0
    letI res := storeChunkedContent compressFn cid content ct st
    res.2.chunks = st.chunks ++ recs
    ∧ res.2.metadata = st.metadata ++ [res.1]
    ∧ res.1.totalChunks = recs.length
    ∧ recs.length = (p.length + (CHUNK_SIZE - 1)) / CHUNK_SIZE
    ∧ recs.map (fun r => r.chunk_index) = List.range' 0 recs.length
    ∧ (∀ r ∈ recs.dropLast, r.chunk_data.length = CHUNK_SIZE)
    ∧ (∀ r ∈ recs, r.chunk_size = r.chunk_data.length ∧ r.content_id = cid)
    ∧ recs.map (fun r => r.chunk_data) = splitIntoChunks p
    ∧ res.1.originalSize = content.length
    ∧ res.1.contentId = cid := by
  have hlenrec : (mkChunkRecords cid (splitIntoChunks (processedOf compressFn content).1) 0).length
      = (splitIntoChunks (processedOf compressFn content).1).length := by
    have := map_data_mkChunkRecords cid (splitIntoChunks (processedOf compressFn content).1) 0
    calc (mkChunkRecords cid (splitIntoChunks (processedOf compressFn content).1) 0).length
        = ((mkChunkRecords cid (splitIntoChunks (processedOf compressFn content).1) 0).map
            (fun r => r.chunk_data)).length := by rw [List.length_map]
      _ = (splitIntoChunks (processedOf compressFn content).1).length := by rw [this]
  refine ⟨by simp [storeChunkedContent], by simp [storeChunkedContent], ?_, ?_, ?_, ?_, ?_, ?_, ?_, ?_⟩
  · simp [storeChunkedContent, hlenrec]
  · rw [hlenrec, length_splitIntoChunks]
  · rw [map_index_mkChunkRecords, hlenrec]
  · intro r hr
    have hd : r.chunk_data ∈ (splitIntoChunks (processedOf compressFn content).1).dropLast := by
      have hmap := map_data_mkChunkRecords cid (splitIntoChunks (processedOf compressFn content).1) 0
      have hmem : r.chunk_data ∈ ((mkChunkRecords cid (splitIntoChunks (processedOf compressFn content).1) 0).dropLast).map (fun r => r.chunk_data) :=
        List.mem_map_of_mem _ hr
      rw [List.map_dropLast, hmap] at hmem
      exact hmem
    exact dropLast_splitIntoChunks _ _ hd
  · exact fun r hr => ⟨size_mkChunkRecords _ _ _ r hr, cid_mkChunkRecords _ _ _ r hr⟩
  · exact map_data_mkChunkRecords _ _ _
  · simp [storeChunkedContent]
  · simp [storeChunkedContent]

/-- Witness for C10 at a concrete two-character store into an empty state. -/
theorem C10_store_chunk_layout_witness :
    letI p := (processedOf (fun _ => none) "ab".toList).1
    letI recs := mkChunkRecords "c1".toList (splitIntoChunks p) 0
    letI res := storeChunkedContent (fun _ => none) "c1".toList "ab".toList "text" ⟨[], []⟩
    res.2.chunks = [].append recs
    ∧ res.2.metadata = [].append [res.1]
    ∧ res.1.totalChunks = recs.length
    ∧ recs.length = (p.length + (CHUNK_SIZE - 1)) / CHUNK_SIZE
    ∧ recs.map (fun r => r.chunk_index) = List.range' 0 recs.length
    ∧ (∀ r ∈ recs.dropLast, r.chunk_data.length = CHUNK_SIZE)
    ∧ (∀ r ∈ recs, r.chunk_size = r.chunk_data.length ∧ r.content_id = "c1".toList)
    ∧ recs.map (fun r => r.chunk_data) = splitIntoChunks p
    ∧ res.1.originalSize = "ab".toList.length
    ∧ res.1.contentId = "c1".toList :=
  C10_store_chunk_layout (fun _ => none) "c1".toList "ab".toList "text" ⟨[], []⟩

/-- The base64 alphabet used by `btoa`. -/
def b64Alphabet : JStr :=
  "ABCDEFGHIJKLMNOPQRSTUVWXYZabcdefghijklmnopqrstuvwxyz0123456789+/".toList

/-- Character of the base64 alphabet at a 6-bit index. -/
def b64Char (n : Nat) : Char := b64Alphabet.getD n 'A'

/-- Base64 rendering of a byte list (groups of three bytes to four
characters, `=` padding). -/
def base64 : List Nat → JStr
  | [] => []
  | [b1] => [b64Char (b1 / 4), b64Char (b1 % 4 * 16), '=', '=']
  | [b1, b2] => [b64Char (b1 / 4), b64Char (b1 % 4 * 16 + b2 / 16), b64Char (b2 % 16 * 4), '=']
  | b1 :: b2 :: b3 :: rest =>
      [b64Char (b1 / 4), b64Char (b1 % 4 * 16 + b2 / 16),
       b64Char (b2 % 16 * 4 + b3 / 64), b64Char (b3 % 64)] ++ base64 rest

/-- JavaScript `btoa`: base64 of a latin-1 string, failing (a thrown
`InvalidCharacterError`) on code units above 255.  This is the `compress`
fallback of the ChunkingEngine when `CompressionStream` is undefined. -/
def btoa (s : JStr) : Option JStr :=
  if s.all (fun c => c.toNat < 256) then some (base64 (s.map (fun c => c.toNat)))
  else none

/-- A list starts with itself followed by anything. -/
theorem startsWithJ_append (p r : JStr) : startsWithJ (p ++ r) p = true := by
  induction p with
  | nil => simp [startsWithJ]
  | cons c cs ih => simp [startsWithJ, ih]

/-- Removing a nonempty pattern from the front of a string that starts
with it leaves the remainder. -/
theorem removeFirst_pref (pat rest : JStr) (h : pat ≠ []) :
    removeFirst pat (pat ++ rest) = rest := by
  cases pat with
  | nil => exact absurd rfl h
  | cons p ps =>
    rw [List.cons_append, removeFirst, if_pos]
    · rw [← List.cons_append]
      exact List.drop_left _ _
    · rw [← List.cons_append]
      exact startsWithJ_append _ _

/-- The content id parsed back out of a reference token is the stored id. -/
theorem extractContentId_ref (cid : JStr) :
    extractContentId (chunkRefTag ++ cid) = cid :=
  removeFirst_pref chunkRefTag cid (by decide)

/-- C7 amended: both retrieval failure modes — missing metadata, and
metadata whose `total_chunks` disagrees with the number of stored chunk
rows — make `retrieveChunkedContent` return `none` (the internal
`Missing chunks` error is caught), and in both cases the query-result cell
bears the `CHUNKED_CONTENT_NOT_FOUND` sentinel; the
`CHUNKED_CONTENT_ERROR` sentinel is produced by neither mode. -/
theorem C7_retrieval_failure_modes (jsonParse : JStr → Option JValue)
    (decompressFn : JStr → Option JStr) (st : ChunkStore) (cid : JStr)
    (h : getMetadata cid st = none
       ∨ ∃ md, getMetadata cid st = some md
           ∧ (getChunks cid st).length ≠ md.totalChunks) :
    retrieveChunkedContent decompressFn cid st = none
    ∧ resolveCell jsonParse decompressFn st (.jstr (chunkRefTag ++ cid)) =
        .jstr ("[CHUNKED_CONTENT_NOT_FOUND:".toList ++ cid ++ "]".toList) := by
  have hret : retrieveChunkedContent decompressFn cid st = none := by
    unfold retrieveChunkedContent
    rcases h with h | ⟨md, hmd, hne⟩
    · rw [h]
    · rw [hmd]
      simp [hne]
  refine ⟨hret, ?_⟩
  unfold resolveCell
  rw [if_pos (by simp [isContentReference, startsWithJ_append])]
  simp only [extractContentId_ref, hret]

/-- Witness for C7 amended: a store whose metadata announces two chunks
while a single chunk row exists. -/
theorem C7_retrieval_failure_modes_witness :
    retrieveChunkedContent (fun _ => none) "c9".toList
      ⟨[⟨"c9".toList, 0, "ab".toList, 2⟩],
       [⟨"c9".toList, 2, 5, "text", false, none⟩]⟩ = none
    ∧ resolveCell (fun _ => none) (fun _ => none)
        ⟨[⟨"c9".toList, 0, "ab".toList, 2⟩],
         [⟨"c9".toList, 2, 5, "text", false, none⟩]⟩
        (.jstr (chunkRefTag ++ "c9".toList)) =
        .jstr ("[CHUNKED_CONTENT_NOT_FOUND:".toList ++ "c9".toList ++ "]".toList) :=
  C7_retrieval_failure_modes (fun _ => none) (fun _ => none)
    ⟨[⟨"c9".toList, 0, "ab".toList, 2⟩],
     [⟨"c9".toList, 2, 5, "text", false, none⟩]⟩ "c9".toList
    (Or.inr ⟨⟨"c9".toList, 2, 5, "text", false, none⟩, rfl, by decide⟩)

/-- C7 counterexample: with metadata present but a corrupt chunk set
(`total_chunks = 2`, one stored chunk), the claim predicts a
`CorruptChunkSet` failure surfacing as the `CHUNKED_CONTENT_ERROR`
sentinel; the code instead swallows the error inside
`retrieveChunkedContent`, which returns `null`, so the cell receives the
`CHUNKED_CONTENT_NOT_FOUND` sentinel. -/
theorem C7_counterexample :
    (getMetadata "c1".toList
        ⟨[⟨"c1".toList, 0, "ab".toList, 2⟩],
         [⟨"c1".toList, 2, 5, "text", false, none⟩]⟩ =
      some ⟨"c1".toList, 2, 5, "text", false, none⟩)
    ∧ (getChunks "c1".toList
        ⟨[⟨"c1".toList, 0, "ab".toList, 2⟩],
         [⟨"c1".toList, 2, 5, "text", false, none⟩]⟩).length = 1
    ∧ retrieveChunkedContent (fun _ => none) "c1".toList
        ⟨[⟨"c1".toList, 0, "ab".toList, 2⟩],
         [⟨"c1".toList, 2, 5, "text", false, none⟩]⟩ = none
    ∧ resolveCell (fun _ => none) (fun _ => none)
        ⟨[⟨"c1".toList, 0, "ab".toList, 2⟩],
         [⟨"c1".toList, 2, 5, "text", false, none⟩]⟩
        (.jstr "__CHUNKED__:c1".toList) =
        .jstr "[CHUNKED_CONTENT_NOT_FOUND:c1]".toList
    ∧ startsWithJ "[CHUNKED_CONTENT_NOT_FOUND:c1]".toList
        "[CHUNKED_CONTENT_ERROR:".toList = false := by
  exact ⟨rfl, rfl, rfl, rfl, rfl⟩

/-- The `compressed` flag of the stored metadata is the flag computed by
the compression step. -/
theorem store_compressed_eq (compressFn : JStr → Option JStr) (cid content : JStr)
    (ct : String) (st : ChunkStore) :
    (storeChunkedContent compressFn cid content ct st).1.compressed =
      (processedOf compressFn content).2 := by
  simp [storeChunkedContent]

/-- The base64 rendering of `n` bytes has `4 * ceil(n/3)` characters. -/
theorem length_base64 (bs : List Nat) :
    (base64 bs).length = 4 * ((bs.length + 2) / 3) := by
  induction bs using base64.induct with
  | case1 => rfl
  | case2 b1 => simp [base64]
  | case3 b1 b2 => simp [base64]
  | case4 b1 b2 b3 rest ih =>
    rw [base64]
    simp only [List.append_eq, List.length_append, List.length_cons, List.length_nil, ih]
    omega

/-- C8 amended: compression is attempted exactly when the feature flag is
on and the content exceeds 8 KiB, and the stored form is the compressed
stream whenever the compressor succeeds — with no comparison against the
original size; when compression is skipped or fails, the original content
is stored and the flag stays unset. -/
theorem C8_compression_policy (compressFn : JStr → Option JStr) (cid content : JStr)
    (ct : String) (st : ChunkStore)
    (hfc : ∀ r ∈ st.chunks, r.content_id ≠ cid) :
    ((storeChunkedContent compressFn cid content ct st).1.compressed = true ↔
      shouldCompress content = true ∧ (compressFn content).isSome = true)
    ∧ (∀ c, compressFn content = some c → shouldCompress content = true →
        (getChunks cid (storeChunkedContent compressFn cid content ct st).2).flatten = c)
    ∧ ((storeChunkedContent compressFn cid content ct st).1.compressed = false →
        (getChunks cid (storeChunkedContent compressFn cid content ct st).2).flatten
          = content) := by
  have hflat : (getChunks cid (storeChunkedContent compressFn cid content ct st).2).flatten
      = (processedOf compressFn content).1 := by
    rw [getChunks_store compressFn cid content ct st hfc, flatten_splitIntoChunks]
  have hflag : (storeChunkedContent compressFn cid content ct st).1.compressed =
      (processedOf compressFn content).2 := by
    simp [storeChunkedContent]
  refine ⟨?_, ?_, ?_⟩
  · rw [hflag]
    unfold processedOf
    by_cases hsc : shouldCompress content = true
    · simp only [ENABLE_COMPRESSION, Bool.true_and, hsc, if_true]
      cases hcf : compressFn content with
      | none => simp [hcf]
      | some c => simp [hcf]
    · simp only [ENABLE_COMPRESSION, Bool.true_and, hsc]
      simp [Bool.not_eq_true] at hsc
      simp [hsc]
  · intro c hc hsc
    rw [hflat]
    unfold processedOf
    simp [ENABLE_COMPRESSION, hsc, hc]
  · intro hcmp
    rw [hflag] at hcmp
    rw [hflat]
    unfold processedOf at hcmp ⊢
    by_cases hsc : shouldCompress content = true
    · simp only [ENABLE_COMPRESSION, Bool.true_and, hsc, if_true] at hcmp ⊢
      cases hcf : compressFn content with
      | none => simp [hcf]
      | some c => rw [hcf] at hcmp; simp at hcmp
    · simp only [ENABLE_COMPRESSION, Bool.true_and, hsc] at hcmp ⊢
      simp [Bool.not_eq_true] at hsc
      simp [hsc]

/-- Witness for C8 amended at a small content with a failing compressor. -/
theorem C8_compression_policy_witness :
    (∀ r ∈ ([] : List ChunkRecord), r.content_id ≠ "c2".toList)
    ∧ (((storeChunkedContent (fun _ => none) "c2".toList "ab".toList "text"
          ⟨[], []⟩).1.compressed = true ↔
        shouldCompress "ab".toList = true ∧ ((fun (_ : JStr) => (none : Option JStr)) "ab".toList).isSome = true)
      ∧ (∀ c, (fun (_ : JStr) => (none : Option JStr)) "ab".toList = some c →
          shouldCompress "ab".toList = true →
          (getChunks "c2".toList (storeChunkedContent (fun _ => none) "c2".toList
            "ab".toList "text" ⟨[], []⟩).2).flatten = c)
      ∧ ((storeChunkedContent (fun _ => none) "c2".toList "ab".toList "text"
            ⟨[], []⟩).1.compressed = false →
          (getChunks "c2".toList (storeChunkedContent (fun _ => none) "c2".toList
            "ab".toList "text" ⟨[], []⟩).2).flatten = "ab".toList)) :=
  And.intro (fun r hr => by cases hr)
    (C8_compression_policy (fun _ => none) "c2".toList "ab".toList "text" ⟨[], []⟩
      (fun r hr => by cases hr))

/-- C8 counterexample: the `btoa` fallback compressor (the code path taken
when `CompressionStream` is undefined) succeeds on an 8193-character text
and produces a strictly larger form (10924 characters), yet
`storeChunkedContent` stores the compressed stream with the flag set —
there is no is-it-smaller comparison, contradicting the claim that the
compressed form is stored only when smaller than the original. -/
theorem C8_counterexample :
    (∃ compressedForm, btoa (List.replicate 8193 'a') = some compressedForm
        ∧ (List.replicate 8193 'a').length < compressedForm.length)
    ∧ (storeChunkedContent btoa "c3".toList (List.replicate 8193 'a') "text"
        ⟨[], []⟩).1.compressed = true := by
  have hall : (List.replicate 8193 'a').all (fun c => c.toNat < 256) = true := by
    rw [List.all_eq_true]
    intro c hc
    rw [List.eq_of_mem_replicate hc]
    decide
  have hbtoa : btoa (List.replicate 8193 'a') =
      some (base64 ((List.replicate 8193 'a').map (fun c => c.toNat))) := by
    unfold btoa
    rw [if_pos hall]
  have hlen : (base64 ((List.replicate 8193 'a').map (fun c => c.toNat))).length = 10924 := by
    rw [length_base64, List.length_map, List.length_replicate]
  constructor
  · refine ⟨base64 ((List.replicate 8193 'a').map (fun c => c.toNat)), hbtoa, ?_⟩
    rw [hlen, List.length_replicate]
    decide
  · have hsc : shouldCompress (List.replicate 8193 'a') = true := by
      unfold shouldCompress
      rw [List.length_replicate]
      decide
    rw [store_compressed_eq]
    unfold processedOf
    rw [if_pos (by rw [hsc]; rfl)]
    rw [hbtoa]


/-!
Identifier normalisers: `sanitizeTableName` and `sanitizeColumnName`
(SchemaInferenceEngine 437-512, duplicated in DataInsertionEngine) and
`validateAndFixIdentifier` (src/do.ts 303-337).  The `Math.random`
fallback suffix is an explicit `rand` parameter; each call site draws a
fresh value, and at most one of the two random branches of a call can run,
so a single parameter per call is faithful.
-/

/-- Conversion of a valid code point round-trips through `Char.ofNat`. -/
theorem toNat_ofNat_valid (n : Nat) (h : n < 55296) : (Char.ofNat n).toNat = n := by
  have hv : n.isValidChar := Or.inl h
  unfold Char.ofNat
  rw [dif_pos hv]
  simp only [Char.ofNatAux, Char.toNat]
  rfl

/-- Characters with equal code points are equal. -/
theorem char_eq_of_toNat_eq {a b : Char} (h : a.toNat = b.toNat) : a = b :=
  Char.ext (UInt32.ext h)

/-- Class `[A-Z]` (the capture group of the camelCase rewrite). -/
def isUpperChar (c : Char) : Bool := 65 ≤ c.toNat && c.toNat ≤ 90

/-- Class `[0-9]` (the leading-digit test). -/
def isDigitChar (c : Char) : Bool := 48 ≤ c.toNat && c.toNat ≤ 57

/-- Lowercase letter or digit. -/
def isLowerAlnum (c : Char) : Bool :=
  (97 ≤ c.toNat && c.toNat ≤ 122) || (48 ≤ c.toNat && c.toNat ≤ 57)

/-- Character allowed in a fully normalised identifier: `[a-z0-9_]`. -/
def isNormChar (c : Char) : Bool := isLowerAlnum c || c.toNat = 95

/-- Code point of `lowerChar` in closed form. -/
theorem lowerChar_toNat (c : Char) :
    (lowerChar c).toNat =
      if 65 ≤ c.toNat ∧ c.toNat ≤ 90 then c.toNat + 32 else c.toNat := by
  unfold lowerChar
  split
  · next h => exact toNat_ofNat_valid _ (by omega)
  · rfl

/-- Lowercasing a word character yields a normalised character. -/
theorem isNormChar_lowerChar (c : Char) (h : isWordChar c = true) :
    isNormChar (lowerChar c) = true := by
  have hl := lowerChar_toNat c
  unfold isWordChar at h
  unfold isNormChar isLowerAlnum
  simp only [Bool.or_eq_true, Bool.and_eq_true, decide_eq_true_eq] at h ⊢
  split at hl <;> omega

/-- Lowercasing does not create or destroy underscores. -/
theorem lowerChar_und (c : Char) : ((lowerChar c).toNat = 95) ↔ (c.toNat = 95) := by
  have hl := lowerChar_toNat c
  split at hl <;> omega

/-- Lowercasing preserves digit-ness. -/
theorem isDigitChar_lowerChar (c : Char) : isDigitChar (lowerChar c) = isDigitChar c := by
  have hl := lowerChar_toNat c
  unfold isDigitChar
  split at hl
  · next h =>
    rw [hl]
    have h1 : (48 ≤ c.toNat + 32 && c.toNat + 32 ≤ 57) = false := by
      simp only [Bool.and_eq_false_iff, decide_eq_false_iff_not]
      omega
    have h2 : (48 ≤ c.toNat && c.toNat ≤ 57) = false := by
      simp only [Bool.and_eq_false_iff, decide_eq_false_iff_not]
      omega
    rw [h1, h2]
  · rw [hl]

/-- Lowercasing fixes already-normalised characters. -/
theorem lowerChar_fixed (c : Char) (h : isNormChar c = true) : lowerChar c = c := by
  unfold lowerChar
  rw [if_neg]
  unfold isNormChar isLowerAlnum at h
  simp only [Bool.or_eq_true, Bool.and_eq_true, decide_eq_true_eq] at h
  omega

/-- Normalised characters are word characters. -/
theorem isWordChar_of_isNormChar (c : Char) (h : isNormChar c = true) :
    isWordChar c = true := by
  unfold isNormChar isLowerAlnum at h
  unfold isWordChar
  simp only [Bool.or_eq_true, Bool.and_eq_true, decide_eq_true_eq] at h ⊢
  omega

/-- A word character that is not an upper-case letter is normalised. -/
theorem isNormChar_of_word_notUpper (c : Char) (hw : isWordChar c = true)
    (hu : isUpperChar c = false) : isNormChar c = true := by
  unfold isWordChar at hw
  unfold isUpperChar at hu
  unfold isNormChar isLowerAlnum
  simp only [Bool.or_eq_true, Bool.and_eq_true, decide_eq_true_eq,
    Bool.and_eq_false_iff, decide_eq_false_iff_not] at hw hu ⊢
  omega

/-- A character is the underscore iff its code point is 95. -/
theorem eq_und_iff (c : Char) : (c = '_') ↔ c.toNat = 95 :=
  ⟨fun h => by rw [h]; rfl, fun h => char_eq_of_toNat_eq h⟩

/-- No two adjacent underscores. -/
def noDoubleUnd : JStr → Bool
  | [] => true
  | [_] => true
  | c :: c2 :: rest => !(c = '_' && c2 = '_') && noDoubleUnd (c2 :: rest)

/-- The first character, if any, is not an underscore. -/
def headNotUnd : JStr → Bool
  | [] => true
  | c :: _ => !(c = '_')

/-- The last character, if any, is not an underscore. -/
def lastNotUnd : JStr → Bool
  | [] => true
  | [c] => !(c = '_')
  | _ :: c2 :: rest => lastNotUnd (c2 :: rest)

/-- Step `replace(/[^a-zA-Z0-9_]/g, '_')`. -/
def replaceInvalid (s : JStr) : JStr :=
  s.map (fun c => if isWordChar c then c else '_')

/-- Step `replace(/_{2,}/g, '_')`: each run of underscores becomes one. -/
def collapseUnd : JStr → JStr
  | [] => []
  | c :: rest =>
    match rest with
    | [] => [c]
    | c2 :: _ =>
      if c = '_' && c2 = '_' then collapseUnd rest else c :: collapseUnd rest

/-- Half of step `replace(/^_|_$/g, '')`: one leading underscore removed. -/
def dropLeadUnd : JStr → JStr
  | [] => []
  | c :: rest => if c = '_' then rest else c :: rest

/-- Other half of `replace(/^_|_$/g, '')`: one trailing underscore removed. -/
def dropTrailUnd : JStr → JStr
  | [] => []
  | [c] => if c = '_' then [] else [c]
  | c :: c2 :: rest => c :: dropTrailUnd (c2 :: rest)

/-- Step `replace(/^_|_$/g, '')` in full. -/
def trimUnd (s : JStr) : JStr := dropTrailUnd (dropLeadUnd s)

/-- Test `/^[0-9]/`. -/
def startsWithDigit : JStr → Bool
  | [] => false
  | c :: _ => isDigitChar c

/-- Step `replace(/([A-Z])/g, '_$1')` of `sanitizeColumnName`. -/
def camelToSnake : JStr → JStr
  | [] => []
  | c :: rest =>
    if isUpperChar c then '_' :: c :: camelToSnake rest
    else c :: camelToSnake rest

/-- Reserved words of `sanitizeTableName` (both engines). -/
def reservedWordsTable : List JStr :=
  ["table", "index", "view", "column", "primary", "key", "foreign",
   "constraint"].map String.toList

/-- Reserved words of `sanitizeColumnName` (both engines). -/
def reservedWordsColumn : List JStr :=
  ["table", "index", "view", "column", "primary", "key", "foreign",
   "constraint", "order", "group", "select", "from", "where"].map String.toList

/-- Reserved words of `validateAndFixIdentifier` (src/do.ts 325-330). -/
def reservedWordsDO : List JStr :=
  ["table", "index", "view", "column", "primary", "key", "foreign",
   "constraint", "order", "group", "select", "from", "where", "insert",
   "update", "delete", "create", "drop", "alter", "join", "inner", "outer",
   "left", "right", "union", "all", "distinct", "having", "limit", "offset",
   "as", "on"].map String.toList

/-- The `openTargetsTerms` synonym map of `sanitizeColumnName`. -/
def openTargetsTerms : List (JStr × JStr) :=
  [("ensemblid", "ensembl_id"), ("efoid", "efo_id"), ("chemblid", "chembl_id"),
   ("approvedsymbol", "approved_symbol"), ("approvedname", "approved_name"),
   ("geneticconstraint", "genetic_constraint"),
   ("mechanismsofaction", "mechanisms_of_action"),
   ("therapeuticareas", "therapeutic_areas"),
   ("pharmacovigilance", "pharmacovigilance")].map
    (fun e => (e.1.toList, e.2.toList))

/-- Lookup `openTargetsTerms[snakeCase] || snakeCase`. -/
def otMapApply (s : JStr) : JStr :=
  match openTargetsTerms.find? (fun e => e.1 == s) with
  | some e => e.2
  | none => s

/-- Step `if (/^[0-9]/.test(sanitized)) sanitized = 'table_' + sanitized`. -/
def tableDigitFix (s : JStr) : JStr :=
  if startsWithDigit s then "table_".toList ++ s else s

/-- Step `if (!sanitized || ...) sanitized = 'table_' + random`. -/
def tableEmptyFallback (rand s : JStr) : JStr :=
  if s.isEmpty then "table_".toList ++ rand else s

/-- Step `if (reservedWords.includes(sanitized)) sanitized += '_table'`. -/
def tableReserve (s : JStr) : JStr :=
  if s ∈ reservedWordsTable then s ++ "_table".toList else s

/-- Method `sanitizeTableName` (SchemaInferenceEngine 437-465; the
DataInsertionEngine copy at 351-379 is textually identical).  `rand`
stands for the `Math.random().toString(36).substr(2, 9)` suffix; only one
of the two random call sites can execute per invocation, so one parameter
is faithful. -/
def sanitizeTableName (rand : JStr) (name : JStr) : JStr :=
  if name.isEmpty then "table_".toList ++ rand
  else
    tableReserve (tableEmptyFallback rand
      (tableDigitFix (toLowerJS (trimUnd (collapseUnd (replaceInvalid name))))))

/-- Step `if (/^[0-9]/.test(snakeCase)) snakeCase = 'col_' + snakeCase`. -/
def colDigitFix (s : JStr) : JStr :=
  if startsWithDigit s then "col_".toList ++ s else s

/-- Step `if (!snakeCase || ...) snakeCase = 'column_' + random`. -/
def colEmptyFallback (rand s : JStr) : JStr :=
  if s.isEmpty then "column_".toList ++ rand else s

/-- Step `if (reservedWords.includes(result)) return result + '_col'`. -/
def colReserve (s : JStr) : JStr :=
  if s ∈ reservedWordsColumn then s ++ "_col".toList else s

/-- Method `sanitizeColumnName` (SchemaInferenceEngine 467-512; the
DataInsertionEngine copy at 393-438 is textually identical). -/
def sanitizeColumnName (rand : JStr) (name : JStr) : JStr :=
  if name.isEmpty then "column_".toList ++ rand
  else
    colReserve (otMapApply (colEmptyFallback rand
      (colDigitFix (trimUnd (collapseUnd (replaceInvalid
        (toLowerJS (camelToSnake name))))))))

/-- Identifier kind argument of `validateAndFixIdentifier`. -/
inductive IdKind where
  | tbl
  | col
  deriving DecidableEq

/-- The fixed fallback names of `validateAndFixIdentifier`. -/
def doFallbackName : IdKind → JStr
  | .tbl => "fallback_table".toList
  | .col => "fallback_column".toList

/-- Digit-prefix step of `validateAndFixIdentifier`. -/
def doDigitFix (kind : IdKind) (s : JStr) : JStr :=
  if startsWithDigit s then
    (match kind with
     | .tbl => "table_".toList
     | .col => "col_".toList) ++ s
  else s

/-- Empty-fallback step of `validateAndFixIdentifier`. -/
def doEmptyFallback (kind : IdKind) (s : JStr) : JStr :=
  if s.isEmpty then doFallbackName kind else s

/-- Reserved-word step of `validateAndFixIdentifier` (the test lowercases
the candidate first). -/
def doReserve (kind : IdKind) (s : JStr) : JStr :=
  if toLowerJS s ∈ reservedWordsDO then
    s ++ (match kind with
          | .tbl => "_tbl".toList
          | .col => "_col".toList)
  else s

/-- Method `validateAndFixIdentifier` (src/do.ts 303-337): no random
fallback — degenerate inputs get fixed deterministic names; the result is
lowercased at the end. -/
def validateAndFixIdentifier (name : JStr) (kind : IdKind) : JStr :=
  if name.isEmpty then doFallbackName kind
  else
    toLowerJS (doReserve kind (doEmptyFallback kind
      (doDigitFix kind (trimUnd (collapseUnd (replaceInvalid name))))))

/-- Underscore-membership test (used to separate generated names from the
underscore-free reserved words and synonym keys). -/
def hasUnd (s : JStr) : Bool := s.any (fun c => c = '_')

/-- Every character produced by `replaceInvalid` is a word character. -/
theorem mem_replaceInvalid (s : JStr) : ∀ c ∈ replaceInvalid s, isWordChar c = true := by
  intro c hc
  rcases List.mem_map.mp hc with ⟨c0, _, rfl⟩
  by_cases h : isWordChar c0 = true
  · simp [h]
  · simp only [Bool.not_eq_true] at h
    simp [h]
    decide

/-- Characters of the collapsed string come from the original. -/
theorem mem_collapseUnd (s : JStr) : ∀ c ∈ collapseUnd s, c ∈ s := by
  induction s using collapseUnd.induct with
  | case1 => simp [collapseUnd]
  | case2 c => simp [collapseUnd]
  | case3 c c2 tail hcond ih =>
    rw [collapseUnd, if_pos hcond]
    intro x hx
    exact List.mem_cons_of_mem c (ih x hx)
  | case4 c c2 tail hcond ih =>
    rw [collapseUnd, if_neg hcond]
    intro x hx
    rcases List.mem_cons.mp hx with rfl | hx
    · exact List.mem_cons_self _ _
    · exact List.mem_cons_of_mem c (ih x hx)

/-- The head survives collapsing. -/
theorem head_collapseUnd (c : Char) (rest : JStr) :
    ∃ t, collapseUnd (c :: rest) = c :: t := by
  induction rest generalizing c with
  | nil => exact ⟨[], rfl⟩
  | cons c2 tail ih =>
    by_cases h : (c = '_' && c2 = '_') = true
    · rw [collapseUnd, if_pos h]
      have hc : c = '_' := by
        simp only [Bool.and_eq_true, decide_eq_true_eq] at h
        exact h.1
      have hc2 : c2 = '_' := by
        simp only [Bool.and_eq_true, decide_eq_true_eq] at h
        exact h.2
      rcases ih c2 with ⟨t, ht⟩
      rw [hc, ← hc2]
      exact ⟨t, ht⟩
    · rw [collapseUnd, if_neg h]
      exact ⟨collapseUnd (c2 :: tail), rfl⟩

/-- Helper: extending a double-underscore-free string on the left. -/
theorem noDoubleUnd_cons (c : Char) (l : JStr)
    (hl : noDoubleUnd l = true)
    (hhead : ∀ c2 t, l = c2 :: t → (c = '_' && c2 = '_') = false) :
    noDoubleUnd (c :: l) = true := by
  cases l with
  | nil => rfl
  | cons c2 t =>
    rw [noDoubleUnd]
    simp only [Bool.and_eq_true, Bool.not_eq_eq_eq_not, Bool.not_true]
    exact ⟨by simpa using hhead c2 t rfl, hl⟩

/-- A collapsed string has no adjacent underscores. -/
theorem noDoubleUnd_collapseUnd (s : JStr) : noDoubleUnd (collapseUnd s) = true := by
  induction s using collapseUnd.induct with
  | case1 => rfl
  | case2 c => rfl
  | case3 c c2 tail hcond ih => rw [collapseUnd, if_pos hcond]; exact ih
  | case4 c c2 tail hcond ih =>
    rw [collapseUnd, if_neg hcond]
    refine noDoubleUnd_cons c _ ih ?_
    intro c3 t ht
    rcases head_collapseUnd c2 tail with ⟨t2, ht2⟩
    rw [ht2] at ht
    cases ht
    simpa using hcond

/-- Collapsing is the identity on double-underscore-free strings. -/
theorem collapseUnd_eq_self (s : JStr) (h : noDoubleUnd s = true) :
    collapseUnd s = s := by
  induction s using collapseUnd.induct with
  | case1 => rfl
  | case2 c => rfl
  | case3 c c2 tail hif ih =>
    rw [noDoubleUnd] at h
    simp only [Bool.and_eq_true, Bool.not_eq_eq_eq_not, Bool.not_true] at h
    rw [hif] at h
    exact absurd h.1 (by simp)
  | case4 c c2 tail hif ih =>
    rw [collapseUnd, if_neg hif]
    rw [noDoubleUnd] at h
    simp only [Bool.and_eq_true] at h
    rw [ih h.2]

/-- Tail of a double-underscore-free string. -/
theorem noDoubleUnd_tail (c : Char) (l : JStr) (h : noDoubleUnd (c :: l) = true) :
    noDoubleUnd l = true := by
  cases l with
  | nil => rfl
  | cons c2 t =>
    rw [noDoubleUnd] at h
    simp only [Bool.and_eq_true] at h
    exact h.2

/-- Dropping the lead underscore preserves double-underscore-freeness. -/
theorem noDoubleUnd_dropLeadUnd (s : JStr) (h : noDoubleUnd s = true) :
    noDoubleUnd (dropLeadUnd s) = true := by
  cases s with
  | nil => rfl
  | cons c rest =>
    rw [dropLeadUnd]
    by_cases hc : c = '_'
    · rw [if_pos hc]
      exact noDoubleUnd_tail c rest h
    · rw [if_neg hc]
      exact h

/-- After dropping the lead underscore of a collapsed string, the head is
clean. -/
theorem headNotUnd_dropLeadUnd (s : JStr) (h : noDoubleUnd s = true) :
    headNotUnd (dropLeadUnd s) = true := by
  cases s with
  | nil => rfl
  | cons c rest =>
    rw [dropLeadUnd]
    by_cases hc : c = '_'
    · rw [if_pos hc]
      cases rest with
      | nil => rfl
      | cons c2 t =>
        rw [noDoubleUnd] at h
        simp only [Bool.and_eq_true, Bool.not_eq_eq_eq_not, Bool.not_true,
          Bool.and_eq_false_iff, decide_eq_false_iff_not] at h
        rw [headNotUnd]
        rcases h.1 with h1 | h1
        · exact absurd hc h1
        · simp [h1]
    · rw [if_neg hc]
      rw [headNotUnd]
      simp [hc]

/-- Unfolding `lastNotUnd` on a cons. -/
theorem lastNotUnd_cons (c : Char) (l : JStr) (hl : l ≠ []) :
    lastNotUnd (c :: l) = lastNotUnd l := by
  cases l with
  | nil => exact absurd rfl hl
  | cons c2 t => rfl

/-- Computation of `dropTrailUnd` on a singleton. -/
theorem dropTrailUnd_singleton (c : Char) :
    dropTrailUnd [c] = if c = '_' then [] else [c] := by
  rw [dropTrailUnd]

/-- The head survives `dropTrailUnd` when anything survives. -/
theorem head_dropTrailUnd (c2 x : Char) (rest t : JStr)
    (h : dropTrailUnd (c2 :: rest) = x :: t) : x = c2 := by
  cases rest with
  | nil =>
    rw [dropTrailUnd_singleton] at h
    by_cases hc2 : c2 = '_'
    · rw [if_pos hc2] at h; cases h
    · rw [if_neg hc2] at h; cases h; rfl
  | cons c4 t4 =>
    rw [dropTrailUnd] at h
    cases h
    rfl

/-- Dropping the trailing underscore preserves double-underscore-freeness. -/
theorem noDoubleUnd_dropTrailUnd (s : JStr) (h : noDoubleUnd s = true) :
    noDoubleUnd (dropTrailUnd s) = true := by
  induction s using dropTrailUnd.induct with
  | case1 => rfl
  | case2 => rfl
  | case3 c hc => rw [dropTrailUnd_singleton, if_neg hc]; rfl
  | case4 c c2 rest ih =>
    rw [dropTrailUnd]
    have htail := ih (noDoubleUnd_tail c _ h)
    refine noDoubleUnd_cons c _ htail ?_
    intro c3 t ht
    have hc3 : c3 = c2 := head_dropTrailUnd c2 c3 rest t ht
    subst hc3
    rw [noDoubleUnd] at h
    simp only [Bool.and_eq_true, Bool.not_eq_eq_eq_not, Bool.not_true] at h
    exact h.1

/-- After dropping the trailing underscore of a collapsed string, the last
character is clean. -/
theorem lastNotUnd_dropTrailUnd (s : JStr) (h : noDoubleUnd s = true) :
    lastNotUnd (dropTrailUnd s) = true := by
  induction s using dropTrailUnd.induct with
  | case1 => rfl
  | case2 => rfl
  | case3 c hc =>
    rw [dropTrailUnd_singleton, if_neg hc, lastNotUnd]
    simp [hc]
  | case4 c c2 rest ih =>
    rw [dropTrailUnd]
    have htail := ih (noDoubleUnd_tail c _ h)
    rcases hemp : dropTrailUnd (c2 :: rest) with _ | ⟨x, xs⟩
    · have hc2 : c2 = '_' ∧ rest = [] := by
        cases rest with
        | nil =>
          rw [dropTrailUnd_singleton] at hemp
          by_cases hc2 : c2 = '_'
          · exact ⟨hc2, rfl⟩
          · rw [if_neg hc2] at hemp; cases hemp
        | cons c4 t4 => rw [dropTrailUnd] at hemp; cases hemp
      rw [lastNotUnd]
      rw [noDoubleUnd] at h
      simp only [Bool.and_eq_true, Bool.not_eq_eq_eq_not, Bool.not_true,
        Bool.and_eq_false_iff, decide_eq_false_iff_not] at h
      rcases h.1 with h1 | h1
      · simp [h1]
      · exact absurd hc2.1 h1
    · rw [lastNotUnd_cons c _ (by simp)]
      rw [hemp] at htail
      exact htail

/-- Dropping the trailing underscore preserves a clean head. -/
theorem headNotUnd_dropTrailUnd (s : JStr) (h : headNotUnd s = true) :
    headNotUnd (dropTrailUnd s) = true := by
  cases s with
  | nil => rfl
  | cons c rest =>
    cases rest with
    | nil =>
      rw [dropTrailUnd_singleton]
      by_cases hc : c = '_'
      · rw [if_pos hc]; rfl
      · rw [if_neg hc]; exact h
    | cons c2 t => rw [dropTrailUnd]; exact h

/-- Characters of `dropLeadUnd` come from the original. -/
theorem mem_dropLeadUnd (s : JStr) : ∀ c ∈ dropLeadUnd s, c ∈ s := by
  cases s with
  | nil => simp [dropLeadUnd]
  | cons c rest =>
    rw [dropLeadUnd]
    by_cases hc : c = '_'
    · rw [if_pos hc]
      exact fun x hx => List.mem_cons_of_mem c hx
    · rw [if_neg hc]
      exact fun x hx => hx

/-- Characters of `dropTrailUnd` come from the original. -/
theorem mem_dropTrailUnd (s : JStr) : ∀ c ∈ dropTrailUnd s, c ∈ s := by
  induction s using dropTrailUnd.induct with
  | case1 => simp [dropTrailUnd]
  | case2 => simp [dropTrailUnd_singleton]
  | case3 c hc => rw [dropTrailUnd_singleton, if_neg hc]; simp
  | case4 c c2 rest ih =>
    rw [dropTrailUnd]
    intro x hx
    rcases List.mem_cons.mp hx with rfl | hx
    · exact List.mem_cons_self _ _
    · exact List.mem_cons_of_mem c (ih x hx)

/-- `dropLeadUnd` is the identity when the head is clean. -/
theorem dropLeadUnd_eq_self (s : JStr) (h : headNotUnd s = true) :
    dropLeadUnd s = s := by
  cases s with
  | nil => rfl
  | cons c rest =>
    rw [headNotUnd] at h
    simp only [Bool.not_eq_eq_eq_not, Bool.not_true, decide_eq_false_iff_not] at h
    rw [dropLeadUnd]
    rw [if_neg h]

/-- `dropTrailUnd` is the identity when the last character is clean. -/
theorem dropTrailUnd_eq_self (s : JStr) (h : lastNotUnd s = true) :
    dropTrailUnd s = s := by
  induction s using dropTrailUnd.induct with
  | case1 => rfl
  | case2 =>
    rw [lastNotUnd] at h
    simp at h
  | case3 c hc => rw [dropTrailUnd_singleton, if_neg hc]
  | case4 c c2 rest ih =>
    rw [lastNotUnd_cons c _ (by simp)] at h
    rw [dropTrailUnd, ih h]


/-- Lowercasing a character is still not upper-case. -/
theorem isUpperChar_lowerChar (c : Char) : isUpperChar (lowerChar c) = false := by
  have hl := lowerChar_toNat c
  unfold isUpperChar
  split at hl <;>
    (rw [hl]
     simp only [Bool.and_eq_false_iff, decide_eq_false_iff_not]
     omega)

/-- Lowercasing preserves being (or not being) the underscore. -/
theorem lowerChar_eq_und_iff (c : Char) : (lowerChar c = '_') ↔ (c = '_') := by
  rw [eq_und_iff, eq_und_iff]
  exact lowerChar_und c

/-- Lowercasing preserves double-underscore-freeness. -/
theorem noDoubleUnd_toLowerJS (s : JStr) (h : noDoubleUnd s = true) :
    noDoubleUnd (toLowerJS s) = true := by
  induction s using noDoubleUnd.induct with
  | case1 => rfl
  | case2 c => rfl
  | case3 c c2 rest ih =>
    show noDoubleUnd (lowerChar c :: lowerChar c2 :: List.map lowerChar rest) = true
    rw [noDoubleUnd] at h ⊢
    simp only [Bool.and_eq_true, Bool.not_eq_eq_eq_not, Bool.not_true,
      Bool.and_eq_false_iff, decide_eq_false_iff_not] at h ⊢
    refine ⟨?_, ih h.2⟩
    rcases h.1 with h1 | h1
    · exact Or.inl (fun hcon => h1 ((lowerChar_eq_und_iff c).mp hcon))
    · exact Or.inr (fun hcon => h1 ((lowerChar_eq_und_iff c2).mp hcon))

/-- Lowercasing preserves a clean head. -/
theorem headNotUnd_toLowerJS (s : JStr) (h : headNotUnd s = true) :
    headNotUnd (toLowerJS s) = true := by
  cases s with
  | nil => rfl
  | cons c rest =>
    show headNotUnd (lowerChar c :: List.map lowerChar rest) = true
    rw [headNotUnd] at h ⊢
    simp only [Bool.not_eq_eq_eq_not, Bool.not_true, decide_eq_false_iff_not] at h ⊢
    exact fun hcon => h ((lowerChar_eq_und_iff c).mp hcon)

/-- Lowercasing preserves a clean last character. -/
theorem lastNotUnd_toLowerJS (s : JStr) (h : lastNotUnd s = true) :
    lastNotUnd (toLowerJS s) = true := by
  induction s using lastNotUnd.induct with
  | case1 => rfl
  | case2 c =>
    show lastNotUnd [lowerChar c] = true
    rw [lastNotUnd] at h ⊢
    simp only [Bool.not_eq_eq_eq_not, Bool.not_true, decide_eq_false_iff_not] at h ⊢
    exact fun hcon => h ((lowerChar_eq_und_iff c).mp hcon)
  | case3 c c2 rest ih =>
    show lastNotUnd (lowerChar c :: lowerChar c2 :: List.map lowerChar rest) = true
    rw [lastNotUnd_cons _ _ (by simp)]
    rw [lastNotUnd_cons _ _ (by simp)] at h
    exact ih h

/-- Lowercasing preserves the leading-digit test. -/
theorem startsWithDigit_toLowerJS (s : JStr) :
    startsWithDigit (toLowerJS s) = startsWithDigit s := by
  cases s with
  | nil => rfl
  | cons c rest =>
    show startsWithDigit (lowerChar c :: List.map lowerChar rest) = _
    rw [startsWithDigit, startsWithDigit]
    exact isDigitChar_lowerChar c

/-- Lowercasing fixes fully-normalised strings. -/
theorem toLowerJS_fixed (s : JStr) (h : ∀ c ∈ s, isNormChar c = true) :
    toLowerJS s = s := by
  induction s with
  | nil => rfl
  | cons c rest ih =>
    show lowerChar c :: List.map lowerChar rest = c :: rest
    rw [lowerChar_fixed c (h c (List.mem_cons_self _ _))]
    congr 1
    exact ih (fun x hx => h x (List.mem_cons_of_mem c hx))

/-- Appending double-underscore-free strings with a clean junction. -/
theorem noDoubleUnd_append (a b : JStr) (ha : noDoubleUnd a = true)
    (hb : noDoubleUnd b = true)
    (hj2 : lastNotUnd a = true ∨ headNotUnd b = true) :
    noDoubleUnd (a ++ b) = true := by
  induction a using lastNotUnd.induct with
  | case1 => simpa using hb
  | case2 c =>
    refine noDoubleUnd_cons c b hb ?_
    intro c2 t hbt
    simp only [Bool.and_eq_false_iff, decide_eq_false_iff_not]
    rcases hj2 with h1 | h1
    · left
      rw [lastNotUnd] at h1
      simpa using h1
    · right
      rw [hbt, headNotUnd] at h1
      simpa using h1
  | case3 c c2 rest ih =>
    rw [List.cons_append]
    have ha' : noDoubleUnd (c2 :: rest) = true := noDoubleUnd_tail c _ ha
    have hj2' : lastNotUnd (c2 :: rest) = true ∨ headNotUnd b = true := by
      rcases hj2 with h1 | h1
      · rw [lastNotUnd_cons c _ (by simp)] at h1
        exact Or.inl h1
      · exact Or.inr h1
    refine noDoubleUnd_cons c _ (ih ha' hj2') ?_
    intro c3 t ht
    rw [List.cons_append] at ht
    cases ht
    rw [noDoubleUnd] at ha
    simp only [Bool.and_eq_true, Bool.not_eq_eq_eq_not, Bool.not_true] at ha
    exact ha.1

/-- The head of an append with a nonempty left part. -/
theorem headNotUnd_append (a b : JStr) (ha : a ≠ []) :
    headNotUnd (a ++ b) = headNotUnd a := by
  cases a with
  | nil => exact absurd rfl ha
  | cons c rest => rfl

/-- The last character of an append with a nonempty right part. -/
theorem lastNotUnd_append (a b : JStr) (hb : b ≠ []) :
    lastNotUnd (a ++ b) = lastNotUnd b := by
  induction a using lastNotUnd.induct with
  | case1 => rfl
  | case2 c =>
    cases b with
    | nil => exact absurd rfl hb
    | cons cb tb => rfl
  | case3 c c2 rest ih =>
    rw [List.cons_append, List.cons_append,
      lastNotUnd_cons _ _ (by simp)]
    rw [List.cons_append] at ih
    exact ih

/-- Alnum characters are not underscores: clean head. -/
theorem headNotUnd_of_alnum (s : JStr) (h : ∀ c ∈ s, isLowerAlnum c = true) :
    headNotUnd s = true := by
  cases s with
  | nil => rfl
  | cons c rest =>
    rw [headNotUnd]
    have := h c (List.mem_cons_self _ _)
    unfold isLowerAlnum at this
    simp only [Bool.or_eq_true, Bool.and_eq_true, decide_eq_true_eq] at this
    simp only [Bool.not_eq_eq_eq_not, Bool.not_true, decide_eq_false_iff_not]
    rw [eq_und_iff]
    omega

/-- Alnum characters are not underscores: clean last character. -/
theorem lastNotUnd_of_alnum (s : JStr) (h : ∀ c ∈ s, isLowerAlnum c = true) :
    lastNotUnd s = true := by
  induction s using lastNotUnd.induct with
  | case1 => rfl
  | case2 c =>
    rw [lastNotUnd]
    have := h c (List.mem_cons_self _ _)
    unfold isLowerAlnum at this
    simp only [Bool.or_eq_true, Bool.and_eq_true, decide_eq_true_eq] at this
    simp only [Bool.not_eq_eq_eq_not, Bool.not_true, decide_eq_false_iff_not]
    rw [eq_und_iff]
    omega
  | case3 c c2 rest ih =>
    rw [lastNotUnd_cons _ _ (by simp)]
    exact ih (fun x hx => h x (List.mem_cons_of_mem c hx))

/-- Alnum strings have no double underscore. -/
theorem noDoubleUnd_of_alnum (s : JStr) (h : ∀ c ∈ s, isLowerAlnum c = true) :
    noDoubleUnd s = true := by
  induction s using noDoubleUnd.induct with
  | case1 => rfl
  | case2 c => rfl
  | case3 c c2 rest ih =>
    rw [noDoubleUnd]
    simp only [Bool.and_eq_true, Bool.not_eq_eq_eq_not, Bool.not_true,
      Bool.and_eq_false_iff, decide_eq_false_iff_not]
    refine ⟨Or.inl ?_, ih (fun x hx => h x (List.mem_cons_of_mem c hx))⟩
    have := h c (List.mem_cons_self _ _)
    unfold isLowerAlnum at this
    simp only [Bool.or_eq_true, Bool.and_eq_true, decide_eq_true_eq] at this
    rw [eq_und_iff]
    omega

/-- Presence of an underscore excludes membership in an underscore-free
word list. -/
theorem not_mem_of_hasUnd (words : List JStr)
    (hw : words.all (fun w => !hasUnd w) = true) (s : JStr)
    (hs : hasUnd s = true) : s ∉ words := by
  intro hmem
  have h := List.all_eq_true.mp hw s hmem
  rw [hs] at h
  cases h

/-- The synonym map fixes strings containing an underscore (all its keys
are underscore-free). -/
theorem otMapApply_of_hasUnd (s : JStr) (hs : hasUnd s = true) :
    otMapApply s = s := by
  unfold otMapApply
  have hnone : openTargetsTerms.find? (fun e => e.1 == s) = none := by
    rw [List.find?_eq_none]
    intro e he hbeq
    have heq : e.1 = s := by simpa using hbeq
    have hkeys : openTargetsTerms.all (fun e => !hasUnd e.1) = true := by decide
    have h := List.all_eq_true.mp hkeys e he
    rw [heq, hs] at h
    cases h
  rw [hnone]


/-- Normalised-characters conjunction satisfied by every intermediate
string after collapse and trim. -/
def coreOk (s : JStr) : Prop :=
  (∀ c ∈ s, isNormChar c = true) ∧ noDoubleUnd s = true ∧
    headNotUnd s = true ∧ lastNotUnd s = true

/-- Alnum characters are normalised. -/
theorem isNormChar_of_alnum (c : Char) (h : isLowerAlnum c = true) :
    isNormChar c = true := by
  unfold isNormChar
  rw [h]
  rfl

/-- Alnum strings are core-normalised. -/
theorem coreOk_of_alnum (s : JStr) (h : ∀ c ∈ s, isLowerAlnum c = true) :
    coreOk s :=
  ⟨fun c hc => isNormChar_of_alnum c (h c hc), noDoubleUnd_of_alnum s h,
   headNotUnd_of_alnum s h, lastNotUnd_of_alnum s h⟩

/-- Appending two normalised pieces with a clean junction (the left piece
may end with an underscore or the right piece may begin without one). -/
theorem coreOk_append (a b : JStr) (ha1 : ∀ c ∈ a, isNormChar c = true)
    (ha2 : noDoubleUnd a = true) (ha3 : headNotUnd a = true) (hane : a ≠ [])
    (hb1 : ∀ c ∈ b, isNormChar c = true) (hb2 : noDoubleUnd b = true)
    (hb4 : lastNotUnd b = true) (hbne : b ≠ [])
    (hjunc : lastNotUnd a = true ∨ headNotUnd b = true) : coreOk (a ++ b) := by
  refine ⟨?_, noDoubleUnd_append a b ha2 hb2 hjunc, ?_, ?_⟩
  · intro c hc
    rcases List.mem_append.mp hc with hc | hc
    · exact ha1 c hc
    · exact hb1 c hc
  · rw [headNotUnd_append a b hane]
    exact ha3
  · rw [lastNotUnd_append a b hbne]
    exact hb4

/-- A well-formed `Math.random().toString(36).substr(2, 9)` suffix:
nonempty, lowercase alphanumeric. -/
def goodRand (r : JStr) : Prop := r ≠ [] ∧ ∀ c ∈ r, isLowerAlnum c = true

instance (r : JStr) : Decidable (goodRand r) := by
  unfold goodRand
  infer_instance

/-- The table pipeline (invalid chars, collapse, trim, lowercase) yields
a core-normalised string. -/
theorem coreOk_table_pipeline (x : JStr) :
    coreOk (toLowerJS (trimUnd (collapseUnd (replaceInvalid x)))) := by
  have hw_word : ∀ c ∈ collapseUnd (replaceInvalid x), isWordChar c = true :=
    fun c hc => mem_replaceInvalid x c (mem_collapseUnd _ c hc)
  have hw_noDD := noDoubleUnd_collapseUnd (replaceInvalid x)
  have hl_noDD := noDoubleUnd_dropLeadUnd _ hw_noDD
  have ht_noDD : noDoubleUnd (trimUnd (collapseUnd (replaceInvalid x))) = true :=
    noDoubleUnd_dropTrailUnd _ hl_noDD
  have ht_head : headNotUnd (trimUnd (collapseUnd (replaceInvalid x))) = true :=
    headNotUnd_dropTrailUnd _ (headNotUnd_dropLeadUnd _ hw_noDD)
  have ht_last : lastNotUnd (trimUnd (collapseUnd (replaceInvalid x))) = true :=
    lastNotUnd_dropTrailUnd _ hl_noDD
  have ht_word : ∀ c ∈ trimUnd (collapseUnd (replaceInvalid x)), isWordChar c = true :=
    fun c hc => hw_word c (mem_dropLeadUnd _ c (mem_dropTrailUnd _ c hc))
  refine ⟨?_, noDoubleUnd_toLowerJS _ ht_noDD, headNotUnd_toLowerJS _ ht_head,
    lastNotUnd_toLowerJS _ ht_last⟩
  intro c hc
  rcases List.mem_map.mp hc with ⟨c0, hc0, rfl⟩
  exact isNormChar_lowerChar c0 (ht_word c0 hc0)

/-- Sanitising an already-lowercased string yields normalised characters. -/
theorem mem_replaceInvalid_lower (x : JStr) :
    ∀ c ∈ replaceInvalid (toLowerJS x), isNormChar c = true := by
  intro c hc
  rcases List.mem_map.mp hc with ⟨c0, hc0, rfl⟩
  by_cases h : isWordChar c0 = true
  · simp only [if_pos h]
    rcases List.mem_map.mp hc0 with ⟨c1, _, rfl⟩
    exact isNormChar_of_word_notUpper _ h (isUpperChar_lowerChar c1)
  · simp only [Bool.not_eq_true] at h
    simp only [h, Bool.false_eq_true, if_false]
    decide

/-- The column pipeline (camelCase split, lowercase, invalid chars,
collapse, trim) yields a core-normalised string. -/
theorem coreOk_column_pipeline (x : JStr) :
    coreOk (trimUnd (collapseUnd (replaceInvalid (toLowerJS (camelToSnake x))))) := by
  have h0 := mem_replaceInvalid_lower (camelToSnake x)
  have hw_norm : ∀ c ∈ collapseUnd (replaceInvalid (toLowerJS (camelToSnake x))),
      isNormChar c = true :=
    fun c hc => h0 c (mem_collapseUnd _ c hc)
  have hw_noDD := noDoubleUnd_collapseUnd (replaceInvalid (toLowerJS (camelToSnake x)))
  have hl_noDD := noDoubleUnd_dropLeadUnd _ hw_noDD
  refine ⟨?_, noDoubleUnd_dropTrailUnd _ hl_noDD,
    headNotUnd_dropTrailUnd _ (headNotUnd_dropLeadUnd _ hw_noDD),
    lastNotUnd_dropTrailUnd _ hl_noDD⟩
  intro c hc
  exact hw_norm c (mem_dropLeadUnd _ c (mem_dropTrailUnd _ c hc))

/-- The do.ts pipeline yields word characters with clean structure (the
lowercase step only happens at the very end there). -/
theorem wordOk_do_pipeline (x : JStr) :
    (∀ c ∈ trimUnd (collapseUnd (replaceInvalid x)), isWordChar c = true)
    ∧ noDoubleUnd (trimUnd (collapseUnd (replaceInvalid x))) = true
    ∧ headNotUnd (trimUnd (collapseUnd (replaceInvalid x))) = true
    ∧ lastNotUnd (trimUnd (collapseUnd (replaceInvalid x))) = true := by
  have hw_word : ∀ c ∈ collapseUnd (replaceInvalid x), isWordChar c = true :=
    fun c hc => mem_replaceInvalid x c (mem_collapseUnd _ c hc)
  have hw_noDD := noDoubleUnd_collapseUnd (replaceInvalid x)
  have hl_noDD := noDoubleUnd_dropLeadUnd _ hw_noDD
  exact ⟨fun c hc => hw_word c (mem_dropLeadUnd _ c (mem_dropTrailUnd _ c hc)),
    noDoubleUnd_dropTrailUnd _ hl_noDD,
    headNotUnd_dropTrailUnd _ (headNotUnd_dropLeadUnd _ hw_noDD),
    lastNotUnd_dropTrailUnd _ hl_noDD⟩

/-- `replaceInvalid` fixes all-word strings. -/
theorem replaceInvalid_fixed (s : JStr) (h : ∀ c ∈ s, isWordChar c = true) :
    replaceInvalid s = s := by
  induction s with
  | nil => rfl
  | cons c rest ih =>
    show (if isWordChar c then c else '_') :: _ = c :: rest
    rw [if_pos (h c (List.mem_cons_self _ _))]
    congr 1
    exact ih (fun x hx => h x (List.mem_cons_of_mem c hx))

/-- `camelToSnake` fixes strings without upper-case characters. -/
theorem camelToSnake_fixed (s : JStr) (h : ∀ c ∈ s, isUpperChar c = false) :
    camelToSnake s = s := by
  induction s with
  | nil => rfl
  | cons c rest ih =>
    rw [camelToSnake, if_neg (by rw [h c (List.mem_cons_self _ _)]; simp)]
    congr 1
    exact ih (fun x hx => h x (List.mem_cons_of_mem c hx))

/-- Normalised characters are not upper-case. -/
theorem isUpperChar_of_norm (c : Char) (h : isNormChar c = true) :
    isUpperChar c = false := by
  unfold isNormChar isLowerAlnum at h
  unfold isUpperChar
  simp only [Bool.or_eq_true, Bool.and_eq_true, decide_eq_true_eq] at h
  simp only [Bool.and_eq_false_iff, decide_eq_false_iff_not]
  omega


/-- Appending keeps a left underscore. -/
theorem hasUnd_append_left (a b : JStr) (h : hasUnd a = true) :
    hasUnd (a ++ b) = true := by
  unfold hasUnd at *
  rw [List.any_append, h]
  rfl

/-- Appending keeps a right underscore. -/
theorem hasUnd_append_right (a b : JStr) (h : hasUnd b = true) :
    hasUnd (a ++ b) = true := by
  unfold hasUnd at *
  rw [List.any_append, h]
  simp

/-- Shape of a fully-normalised table identifier: exactly the outputs
`sanitizeTableName` can produce, and exactly the fixed points of a second
application. -/
def normTable (s : JStr) : Prop :=
  coreOk s ∧ s ≠ [] ∧ startsWithDigit s = false ∧ s ∉ reservedWordsTable

/-- The random fallback name is a normalised table identifier. -/
theorem normTable_label_rand (r : JStr) (hr : goodRand r) :
    normTable ("table_".toList ++ r) := by
  obtain ⟨hr1, hr2⟩ := hr
  refine ⟨coreOk_append _ _ (by decide) (by decide) (by decide) (by decide)
      (fun c hc => isNormChar_of_alnum c (hr2 c hc)) (noDoubleUnd_of_alnum r hr2)
      (lastNotUnd_of_alnum r hr2) hr1 (Or.inr (headNotUnd_of_alnum r hr2)), ?_, ?_, ?_⟩
  · simp
  · rfl
  · exact not_mem_of_hasUnd _ (by decide) _ (hasUnd_append_left _ _ (by decide))

/-- Every output of `sanitizeTableName` (under a well-formed random
suffix) is a normalised table identifier. -/
theorem normTable_sanitizeTableName (r x : JStr) (hr : goodRand r) :
    normTable (sanitizeTableName r x) := by
  have hcore := coreOk_table_pipeline x
  unfold sanitizeTableName
  by_cases hx : x.isEmpty = true
  · rw [if_pos hx]
    exact normTable_label_rand r hr
  · rw [if_neg hx]
    unfold tableDigitFix
    by_cases hd : startsWithDigit (toLowerJS (trimUnd (collapseUnd (replaceInvalid x)))) = true
    · rw [if_pos hd]
      have hne : toLowerJS (trimUnd (collapseUnd (replaceInvalid x))) ≠ [] := by
        intro h
        rw [h] at hd
        cases hd
      unfold tableEmptyFallback
      rw [if_neg (by simp : ¬("table_".toList ++
        toLowerJS (trimUnd (collapseUnd (replaceInvalid x)))).isEmpty = true)]
      have hres : ("table_".toList ++ toLowerJS (trimUnd (collapseUnd (replaceInvalid x))))
          ∉ reservedWordsTable :=
        not_mem_of_hasUnd _ (by decide) _ (hasUnd_append_left _ _ (by decide))
      unfold tableReserve
      rw [if_neg hres]
      exact ⟨coreOk_append _ _ (by decide) (by decide) (by decide) (by decide)
          hcore.1 hcore.2.1 hcore.2.2.2 hne (Or.inr hcore.2.2.1), by simp, rfl, hres⟩
    · rw [if_neg hd]
      unfold tableEmptyFallback
      by_cases he : (toLowerJS (trimUnd (collapseUnd (replaceInvalid x)))).isEmpty = true
      · rw [if_pos he]
        have hres : ("table_".toList ++ r) ∉ reservedWordsTable :=
          not_mem_of_hasUnd _ (by decide) _ (hasUnd_append_left _ _ (by decide))
        unfold tableReserve
        rw [if_neg hres]
        exact normTable_label_rand r hr
      · rw [if_neg he]
        unfold tableReserve
        by_cases hres : (toLowerJS (trimUnd (collapseUnd (replaceInvalid x))))
            ∈ reservedWordsTable
        · rw [if_pos hres]
          have hcases := hres
          simp only [reservedWordsTable, List.map_cons, List.map_nil, List.mem_cons,
            List.not_mem_nil, or_false] at hcases
          rcases hcases with h | h | h | h | h | h | h | h <;>
            (rw [h]; unfold normTable coreOk; decide)
        · rw [if_neg hres]
          refine ⟨hcore, ?_, ?_, hres⟩
          · intro h
            rw [h] at he
            exact he rfl
          · simpa using hd

/-- A second sanitisation fixes any normalised table identifier. -/
theorem sanitizeTableName_fixed (r y : JStr) (hy : normTable y) :
    sanitizeTableName r y = y := by
  obtain ⟨⟨hnorm, hnoDD, hhead, hlast⟩, hne, hdig, hres⟩ := hy
  unfold sanitizeTableName
  rw [if_neg (by simpa using hne)]
  have h1 : replaceInvalid y = y :=
    replaceInvalid_fixed y (fun c hc => isWordChar_of_isNormChar c (hnorm c hc))
  have h2 : collapseUnd y = y := collapseUnd_eq_self y hnoDD
  have h3 : trimUnd y = y := by
    unfold trimUnd
    rw [dropLeadUnd_eq_self y hhead, dropTrailUnd_eq_self y hlast]
  have h4 : toLowerJS y = y := toLowerJS_fixed y hnorm
  rw [h1, h2, h3, h4]
  unfold tableDigitFix
  rw [if_neg (by simp [hdig])]
  unfold tableEmptyFallback
  rw [if_neg (by simpa using hne)]
  unfold tableReserve
  rw [if_neg hres]

/-- Away from the random fallback branches, `sanitizeTableName` does not
depend on the random suffix. -/
theorem sanitizeTableName_seedless (r r' x : JStr) (hx : x ≠ [])
    (hcore : toLowerJS (trimUnd (collapseUnd (replaceInvalid x))) ≠ []) :
    sanitizeTableName r x = sanitizeTableName r' x := by
  unfold sanitizeTableName
  rw [if_neg (by simpa using hx), if_neg (by simpa using hx)]
  unfold tableDigitFix
  by_cases hd : startsWithDigit (toLowerJS (trimUnd (collapseUnd (replaceInvalid x)))) = true
  · rw [if_pos hd]
    unfold tableEmptyFallback
    rw [if_neg (by simp)]
    rw [if_neg (by simp)]
  · rw [if_neg hd]
    unfold tableEmptyFallback
    rw [if_neg (by simpa using hcore)]
    rw [if_neg (by simpa using hcore)]


/-- Shape of a fully-normalised column identifier; the last conjunct says
the synonym map fixes it. -/
def normColumn (s : JStr) : Prop :=
  coreOk s ∧ s ≠ [] ∧ startsWithDigit s = false ∧ s ∉ reservedWordsColumn ∧
    otMapApply s = s

/-- The random fallback name is a normalised column identifier. -/
theorem normColumn_label_rand (r : JStr) (hr : goodRand r) :
    normColumn ("column_".toList ++ r) := by
  obtain ⟨hr1, hr2⟩ := hr
  refine ⟨coreOk_append _ _ (by decide) (by decide) (by decide) (by decide)
      (fun c hc => isNormChar_of_alnum c (hr2 c hc)) (noDoubleUnd_of_alnum r hr2)
      (lastNotUnd_of_alnum r hr2) hr1 (Or.inr (headNotUnd_of_alnum r hr2)), ?_, ?_, ?_, ?_⟩
  · simp
  · rfl
  · exact not_mem_of_hasUnd _ (by decide) _ (hasUnd_append_left _ _ (by decide))
  · exact otMapApply_of_hasUnd _ (hasUnd_append_left _ _ (by decide))

/-- Every output of `sanitizeColumnName` (under a well-formed random
suffix) is a normalised column identifier. -/
theorem normColumn_sanitizeColumnName (r x : JStr) (hr : goodRand r) :
    normColumn (sanitizeColumnName r x) := by
  have hcore := coreOk_column_pipeline x
  unfold sanitizeColumnName
  by_cases hx : x.isEmpty = true
  · rw [if_pos hx]
    exact normColumn_label_rand r hr
  · rw [if_neg hx]
    unfold colDigitFix
    by_cases hd : startsWithDigit (trimUnd (collapseUnd (replaceInvalid
        (toLowerJS (camelToSnake x))))) = true
    · rw [if_pos hd]
      have hne : trimUnd (collapseUnd (replaceInvalid (toLowerJS (camelToSnake x)))) ≠ [] := by
        intro h
        rw [h] at hd
        cases hd
      unfold colEmptyFallback
      rw [if_neg (by simp : ¬("col_".toList ++ trimUnd (collapseUnd (replaceInvalid
        (toLowerJS (camelToSnake x))))).isEmpty = true)]
      rw [otMapApply_of_hasUnd _ (hasUnd_append_left _ _ (by decide))]
      have hres : ("col_".toList ++ trimUnd (collapseUnd (replaceInvalid
          (toLowerJS (camelToSnake x))))) ∉ reservedWordsColumn :=
        not_mem_of_hasUnd _ (by decide) _ (hasUnd_append_left _ _ (by decide))
      unfold colReserve
      rw [if_neg hres]
      exact ⟨coreOk_append _ _ (by decide) (by decide) (by decide) (by decide)
          hcore.1 hcore.2.1 hcore.2.2.2 hne (Or.inr hcore.2.2.1), by simp, rfl, hres,
        otMapApply_of_hasUnd _ (hasUnd_append_left _ _ (by decide))⟩
    · rw [if_neg hd]
      unfold colEmptyFallback
      by_cases he : (trimUnd (collapseUnd (replaceInvalid (toLowerJS (camelToSnake x))))).isEmpty = true
      · rw [if_pos he]
        rw [otMapApply_of_hasUnd _ (hasUnd_append_left _ _ (by decide))]
        have hres : ("column_".toList ++ r) ∉ reservedWordsColumn :=
          not_mem_of_hasUnd _ (by decide) _ (hasUnd_append_left _ _ (by decide))
        unfold colReserve
        rw [if_neg hres]
        exact normColumn_label_rand r hr
      · rw [if_neg he]
        rcases hfind : openTargetsTerms.find? (fun e => e.1 ==
            trimUnd (collapseUnd (replaceInvalid (toLowerJS (camelToSnake x))))) with _ | e
        · have hot : otMapApply (trimUnd (collapseUnd (replaceInvalid (toLowerJS (camelToSnake x)))))
              = trimUnd (collapseUnd (replaceInvalid (toLowerJS (camelToSnake x)))) := by
            unfold otMapApply
            rw [hfind]
          rw [hot]
          unfold colReserve
          by_cases hres : trimUnd (collapseUnd (replaceInvalid (toLowerJS (camelToSnake x))))
              ∈ reservedWordsColumn
          · rw [if_pos hres]
            have hcases := hres
            simp only [reservedWordsColumn, List.map_cons, List.map_nil, List.mem_cons,
              List.not_mem_nil, or_false] at hcases
            rcases hcases with h | h | h | h | h | h | h | h | h | h | h | h | h <;>
              (rw [h]; unfold normColumn coreOk; decide)
          · rw [if_neg hres]
            refine ⟨hcore, ?_, by simpa using hd, hres, hot⟩
            intro h
            rw [h] at he
            exact he rfl
        · have hot : otMapApply (trimUnd (collapseUnd (replaceInvalid (toLowerJS (camelToSnake x)))))
              = e.2 := by
            unfold otMapApply
            rw [hfind]
          rw [hot]
          have hmem : e ∈ openTargetsTerms := List.mem_of_find?_eq_some hfind
          simp only [openTargetsTerms, List.map_cons, List.map_nil, List.mem_cons,
            List.not_mem_nil, or_false] at hmem
          rcases hmem with h | h | h | h | h | h | h | h | h <;>
            (rw [h]; unfold colReserve normColumn coreOk; decide)

/-- A second sanitisation fixes any normalised column identifier. -/
theorem sanitizeColumnName_fixed (r y : JStr) (hy : normColumn y) :
    sanitizeColumnName r y = y := by
  obtain ⟨⟨hnorm, hnoDD, hhead, hlast⟩, hne, hdig, hres, hot⟩ := hy
  unfold sanitizeColumnName
  rw [if_neg (by simpa using hne)]
  rw [camelToSnake_fixed y (fun c hc => isUpperChar_of_norm c (hnorm c hc))]
  rw [toLowerJS_fixed y hnorm]
  rw [replaceInvalid_fixed y (fun c hc => isWordChar_of_isNormChar c (hnorm c hc))]
  rw [collapseUnd_eq_self y hnoDD]
  rw [show trimUnd y = y from by
    unfold trimUnd
    rw [dropLeadUnd_eq_self y hhead, dropTrailUnd_eq_self y hlast]]
  unfold colDigitFix
  rw [if_neg (by simp [hdig])]
  unfold colEmptyFallback
  rw [if_neg (by simpa using hne)]
  rw [hot]
  unfold colReserve
  rw [if_neg hres]

/-- Away from the random fallback branches, `sanitizeColumnName` does not
depend on the random suffix. -/
theorem sanitizeColumnName_seedless (r r' x : JStr) (hx : x ≠ [])
    (hcore : trimUnd (collapseUnd (replaceInvalid (toLowerJS (camelToSnake x)))) ≠ []) :
    sanitizeColumnName r x = sanitizeColumnName r' x := by
  unfold sanitizeColumnName
  rw [if_neg (by simpa using hx), if_neg (by simpa using hx)]
  unfold colDigitFix
  by_cases hd : startsWithDigit (trimUnd (collapseUnd (replaceInvalid
      (toLowerJS (camelToSnake x))))) = true
  · rw [if_pos hd]
    unfold colEmptyFallback
    rw [if_neg (by simp)]
    rw [if_neg (by simp)]
  · rw [if_neg hd]
    unfold colEmptyFallback
    rw [if_neg (by simpa using hcore)]
    rw [if_neg (by simpa using hcore)]


/-- Lowercasing preserves nonemptiness. -/
theorem toLowerJS_ne_nil (s : JStr) (h : s ≠ []) : toLowerJS s ≠ [] := by
  unfold toLowerJS
  simpa using h

/-- The leading-digit test only looks at the nonempty left part. -/
theorem startsWithDigit_append (a b : JStr) (ha : a ≠ []) :
    startsWithDigit (a ++ b) = startsWithDigit a := by
  cases a with
  | nil => exact absurd rfl ha
  | cons c rest => rfl

/-- Shape of a fully-normalised do.ts identifier. -/
def normDO (s : JStr) : Prop :=
  coreOk s ∧ s ≠ [] ∧ startsWithDigit s = false ∧ s ∉ reservedWordsDO

/-- Every output of `validateAndFixIdentifier` is a normalised
identifier. -/
theorem normDO_validateAndFixIdentifier (x : JStr) (kind : IdKind) :
    normDO (validateAndFixIdentifier x kind) := by
  have hword := wordOk_do_pipeline x
  unfold validateAndFixIdentifier
  by_cases hx : x.isEmpty = true
  · rw [if_pos hx]
    cases kind
    · unfold doFallbackName normDO coreOk
      decide
    · unfold doFallbackName normDO coreOk
      decide
  · cases kind
    · rw [if_neg hx]
      unfold doDigitFix
      by_cases hd : startsWithDigit (trimUnd (collapseUnd (replaceInvalid x))) = true
      · rw [if_pos hd]
        have hne : trimUnd (collapseUnd (replaceInvalid x)) ≠ [] := by
          intro h
          rw [h] at hd
          cases hd
        unfold doEmptyFallback
        rw [if_neg (by simp : ¬("table_".toList ++
          trimUnd (collapseUnd (replaceInvalid x))).isEmpty = true)]
        unfold doReserve
        have hres : toLowerJS ("table_".toList ++ trimUnd (collapseUnd (replaceInvalid x)))
            ∉ reservedWordsDO := by
          apply not_mem_of_hasUnd _ (by decide)
          unfold toLowerJS
          rw [List.map_append]
          exact hasUnd_append_left _ _ (by decide)
        rw [if_neg hres]
        unfold toLowerJS
        rw [List.map_append]
        rw [show List.map lowerChar "table_".toList = "table_".toList from by decide]
        refine ⟨coreOk_append _ _ (by decide) (by decide) (by decide) (by decide)
            (fun c hc => ?_) (noDoubleUnd_toLowerJS _ hword.2.1)
            (lastNotUnd_toLowerJS _ hword.2.2.2) (by simpa using hne)
            (Or.inr (headNotUnd_toLowerJS _ hword.2.2.1)), by simp, rfl, ?_⟩
        · rcases List.mem_map.mp hc with ⟨c0, hc0, rfl⟩
          exact isNormChar_lowerChar c0 (hword.1 c0 hc0)
        · unfold toLowerJS at hres
          rw [List.map_append,
            show List.map lowerChar "table_".toList = "table_".toList from by decide] at hres
          exact hres
      · rw [if_neg hd]
        unfold doEmptyFallback
        by_cases he : (trimUnd (collapseUnd (replaceInvalid x))).isEmpty = true
        · rw [if_pos he]
          unfold doFallbackName doReserve
          rw [if_neg (by decide)]
          unfold normDO coreOk
          decide
        · rw [if_neg he]
          unfold doReserve
          by_cases hres : toLowerJS (trimUnd (collapseUnd (replaceInvalid x)))
              ∈ reservedWordsDO
          · rw [if_pos hres]
            unfold toLowerJS
            rw [List.map_append]
            rw [show List.map lowerChar "_tbl".toList = "_tbl".toList from by decide]
            refine ⟨coreOk_append _ _ (fun c hc => ?_) (noDoubleUnd_toLowerJS _ hword.2.1)
                (headNotUnd_toLowerJS _ hword.2.2.1) (toLowerJS_ne_nil _ (by simpa using he))
                (by decide) (by decide) (by decide) (by decide)
                (Or.inl (lastNotUnd_toLowerJS _ hword.2.2.2)), by simp, ?_, ?_⟩
            · rcases List.mem_map.mp hc with ⟨c0, hc0, rfl⟩
              exact isNormChar_lowerChar c0 (hword.1 c0 hc0)
            · rw [startsWithDigit_append _ _ (by simpa using he)]
              show startsWithDigit (toLowerJS (trimUnd (collapseUnd (replaceInvalid x)))) = false
              rw [startsWithDigit_toLowerJS]
              simpa using hd
            · exact not_mem_of_hasUnd _ (by decide) _
                (hasUnd_append_right _ _ (by decide))
          · rw [if_neg hres]
            refine ⟨⟨fun c hc => ?_, noDoubleUnd_toLowerJS _ hword.2.1,
                headNotUnd_toLowerJS _ hword.2.2.1, lastNotUnd_toLowerJS _ hword.2.2.2⟩,
              toLowerJS_ne_nil _ (by simpa using he), ?_, hres⟩
            · rcases List.mem_map.mp hc with ⟨c0, hc0, rfl⟩
              exact isNormChar_lowerChar c0 (hword.1 c0 hc0)
            · rw [startsWithDigit_toLowerJS]
              simpa using hd
    · rw [if_neg hx]
      unfold doDigitFix
      by_cases hd : startsWithDigit (trimUnd (collapseUnd (replaceInvalid x))) = true
      · rw [if_pos hd]
        have hne : trimUnd (collapseUnd (replaceInvalid x)) ≠ [] := by
          intro h
          rw [h] at hd
          cases hd
        unfold doEmptyFallback
        rw [if_neg (by simp : ¬("col_".toList ++
          trimUnd (collapseUnd (replaceInvalid x))).isEmpty = true)]
        unfold doReserve
        have hres : toLowerJS ("col_".toList ++ trimUnd (collapseUnd (replaceInvalid x)))
            ∉ reservedWordsDO := by
          apply not_mem_of_hasUnd _ (by decide)
          unfold toLowerJS
          rw [List.map_append]
          exact hasUnd_append_left _ _ (by decide)
        rw [if_neg hres]
        unfold toLowerJS
        rw [List.map_append]
        rw [show List.map lowerChar "col_".toList = "col_".toList from by decide]
        refine ⟨coreOk_append _ _ (by decide) (by decide) (by decide) (by decide)
            (fun c hc => ?_) (noDoubleUnd_toLowerJS _ hword.2.1)
            (lastNotUnd_toLowerJS _ hword.2.2.2) (by simpa using hne)
            (Or.inr (headNotUnd_toLowerJS _ hword.2.2.1)), by simp, rfl, ?_⟩
        · rcases List.mem_map.mp hc with ⟨c0, hc0, rfl⟩
          exact isNormChar_lowerChar c0 (hword.1 c0 hc0)
        · unfold toLowerJS at hres
          rw [List.map_append,
            show List.map lowerChar "col_".toList = "col_".toList from by decide] at hres
          exact hres
      · rw [if_neg hd]
        unfold doEmptyFallback
        by_cases he : (trimUnd (collapseUnd (replaceInvalid x))).isEmpty = true
        · rw [if_pos he]
          unfold doFallbackName doReserve
          rw [if_neg (by decide)]
          unfold normDO coreOk
          decide
        · rw [if_neg he]
          unfold doReserve
          by_cases hres : toLowerJS (trimUnd (collapseUnd (replaceInvalid x)))
              ∈ reservedWordsDO
          · rw [if_pos hres]
            unfold toLowerJS
            rw [List.map_append]
            rw [show List.map lowerChar "_col".toList = "_col".toList from by decide]
            refine ⟨coreOk_append _ _ (fun c hc => ?_) (noDoubleUnd_toLowerJS _ hword.2.1)
                (headNotUnd_toLowerJS _ hword.2.2.1) (toLowerJS_ne_nil _ (by simpa using he))
                (by decide) (by decide) (by decide) (by decide)
                (Or.inl (lastNotUnd_toLowerJS _ hword.2.2.2)), by simp, ?_, ?_⟩
            · rcases List.mem_map.mp hc with ⟨c0, hc0, rfl⟩
              exact isNormChar_lowerChar c0 (hword.1 c0 hc0)
            · rw [startsWithDigit_append _ _ (by simpa using he)]
              show startsWithDigit (toLowerJS (trimUnd (collapseUnd (replaceInvalid x)))) = false
              rw [startsWithDigit_toLowerJS]
              simpa using hd
            · exact not_mem_of_hasUnd _ (by decide) _
                (hasUnd_append_right _ _ (by decide))
          · rw [if_neg hres]
            refine ⟨⟨fun c hc => ?_, noDoubleUnd_toLowerJS _ hword.2.1,
                headNotUnd_toLowerJS _ hword.2.2.1, lastNotUnd_toLowerJS _ hword.2.2.2⟩,
              toLowerJS_ne_nil _ (by simpa using he), ?_, hres⟩
            · rcases List.mem_map.mp hc with ⟨c0, hc0, rfl⟩
              exact isNormChar_lowerChar c0 (hword.1 c0 hc0)
            · rw [startsWithDigit_toLowerJS]
              simpa using hd

/-- A second pass of `validateAndFixIdentifier` fixes any normalised
identifier. -/
theorem validateAndFixIdentifier_fixed (y : JStr) (kind : IdKind) (hy : normDO y) :
    validateAndFixIdentifier y kind = y := by
  obtain ⟨⟨hnorm, hnoDD, hhead, hlast⟩, hne, hdig, hres⟩ := hy
  unfold validateAndFixIdentifier
  rw [if_neg (by simpa using hne)]
  rw [replaceInvalid_fixed y (fun c hc => isWordChar_of_isNormChar c (hnorm c hc))]
  rw [collapseUnd_eq_self y hnoDD]
  rw [show trimUnd y = y from by
    unfold trimUnd
    rw [dropLeadUnd_eq_self y hhead, dropTrailUnd_eq_self y hlast]]
  unfold doDigitFix
  rw [if_neg (by simp [hdig])]
  unfold doEmptyFallback
  rw [if_neg (by simpa using hne)]
  unfold doReserve
  rw [toLowerJS_fixed y hnorm]
  rw [if_neg hres]
  exact toLowerJS_fixed y hnorm


/-- C9 counterexample: the two engine sanitisers are not deterministic
functions of their input — on the empty string (or any input whose
sanitised core is empty) they emit `table_`/`column_` followed by a fresh
`Math.random()` suffix, so two legitimate random draws give two different
outputs for the same input. -/
theorem C9_counterexample :
    sanitizeTableName "aaaaaaaaa".toList [] ≠ sanitizeTableName "bbbbbbbbb".toList []
    ∧ sanitizeColumnName "aaaaaaaaa".toList [] ≠ sanitizeColumnName "bbbbbbbbb".toList [] := by
  decide

/-- C9 amended: the three identifier normalisers are total (always return
a nonempty identifier) and idempotent — a second application fixes any
first output, provided the random suffix is a nonempty lowercase
alphanumeric string, as `Math.random().toString(36).substr(2, 9)`
produces; `validateAndFixIdentifier` is deterministic outright, while the
two engine sanitisers are deterministic (random-suffix independent)
exactly on the inputs that avoid the random fallback branch, i.e. whose
sanitised core is nonempty. -/
theorem C9_normalisers_amended :
    (∀ x kind, validateAndFixIdentifier (validateAndFixIdentifier x kind) kind
        = validateAndFixIdentifier x kind)
    ∧ (∀ x kind, validateAndFixIdentifier x kind ≠ [])
    ∧ (∀ r r' x, goodRand r →
        sanitizeTableName r' (sanitizeTableName r x) = sanitizeTableName r x)
    ∧ (∀ r x, goodRand r → sanitizeTableName r x ≠ [])
    ∧ (∀ r r' x, x ≠ [] → toLowerJS (trimUnd (collapseUnd (replaceInvalid x))) ≠ [] →
        sanitizeTableName r x = sanitizeTableName r' x)
    ∧ (∀ r r' x, goodRand r →
        sanitizeColumnName r' (sanitizeColumnName r x) = sanitizeColumnName r x)
    ∧ (∀ r x, goodRand r → sanitizeColumnName r x ≠ [])
    ∧ (∀ r r' x, x ≠ [] →
        trimUnd (collapseUnd (replaceInvalid (toLowerJS (camelToSnake x)))) ≠ [] →
        sanitizeColumnName r x = sanitizeColumnName r' x) :=
  ⟨fun x kind => validateAndFixIdentifier_fixed _ kind (normDO_validateAndFixIdentifier x kind),
   fun x kind => (normDO_validateAndFixIdentifier x kind).2.1,
   fun r r' x hr => sanitizeTableName_fixed r' _ (normTable_sanitizeTableName r x hr),
   fun r x hr => (normTable_sanitizeTableName r x hr).2.1,
   sanitizeTableName_seedless,
   fun r r' x hr => sanitizeColumnName_fixed r' _ (normColumn_sanitizeColumnName r x hr),
   fun r x hr => (normColumn_sanitizeColumnName r x hr).2.1,
   sanitizeColumnName_seedless⟩

/-- Witness for C9 amended at concrete identifiers and random suffixes. -/
theorem C9_normalisers_amended_witness :
    goodRand "k2j3h4x9z".toList
    ∧ validateAndFixIdentifier (validateAndFixIdentifier "9a b!".toList IdKind.tbl) IdKind.tbl
        = validateAndFixIdentifier "9a b!".toList IdKind.tbl
    ∧ validateAndFixIdentifier "9a b!".toList IdKind.col ≠ []
    ∧ sanitizeTableName "xyz".toList (sanitizeTableName "k2j3h4x9z".toList "Approved Symbol".toList)
        = sanitizeTableName "k2j3h4x9z".toList "Approved Symbol".toList
    ∧ sanitizeTableName "k2j3h4x9z".toList "select".toList ≠ []
    ∧ ("order".toList ≠ []
        ∧ toLowerJS (trimUnd (collapseUnd (replaceInvalid "order".toList))) ≠ []
        ∧ sanitizeTableName "k2j3h4x9z".toList "order".toList
            = sanitizeTableName "xyz".toList "order".toList)
    ∧ sanitizeColumnName "xyz".toList (sanitizeColumnName "k2j3h4x9z".toList "ensemblId".toList)
        = sanitizeColumnName "k2j3h4x9z".toList "ensemblId".toList
    ∧ sanitizeColumnName "k2j3h4x9z".toList "where".toList ≠ []
    ∧ ("approvedName".toList ≠ []
        ∧ trimUnd (collapseUnd (replaceInvalid (toLowerJS (camelToSnake "approvedName".toList)))) ≠ []
        ∧ sanitizeColumnName "k2j3h4x9z".toList "approvedName".toList
            = sanitizeColumnName "xyz".toList "approvedName".toList) := by
  have h := C9_normalisers_amended
  exact ⟨by decide, h.1 _ _, h.2.1 _ _, h.2.2.1 _ _ _ (by decide),
    h.2.2.2.1 _ _ (by decide),
    ⟨by decide, by decide, h.2.2.2.2.1 _ _ _ (by decide) (by decide)⟩,
    h.2.2.2.2.2.1 _ _ _ (by decide), h.2.2.2.2.2.2.1 _ _ (by decide),
    ⟨by decide, by decide, h.2.2.2.2.2.2.2 _ _ _ (by decide) (by decide)⟩⟩


/-!
Type resolver (SchemaInferenceEngine): `getSQLiteType`, the `Set`-based
column-type accumulation of `addColumnType`, and `resolveColumnTypes`.
-/

/-- Method `getSQLiteType` (SchemaInferenceEngine 427-435).  `jnum q` with
`q.den = 1` models a JavaScript number for which `Number.isInteger` is
true. -/
def getSQLiteType : JValue → String
  | .jnull => "TEXT"
  | .jundef => "TEXT"
  | .jnum q => if q.den = 1 then "INTEGER" else "REAL"
  | .jbool _ => "INTEGER"
  | .jstr _ => "TEXT"
  | .jarr _ => "TEXT"
  | .jobj _ => "TEXT"

/-- The `Set.add` of `addColumnType`: insertion-ordered, duplicates
ignored. -/
def addTypeObs (types : List String) (t : String) : List String :=
  if t ∈ types then types else types ++ [t]

/-- Per-column branch of `resolveColumnTypes` (SchemaInferenceEngine
404-417): a single observation passes through, mixed observations prefer
TEXT over REAL over INTEGER. -/
def resolveColumnType (types : List String) : String :=
  if types.length = 1 then types.headD ""
  else if "TEXT" ∈ types then "TEXT"
  else if "REAL" ∈ types then "REAL"
  else "INTEGER"

/-- Method `resolveColumnTypes` over the whole column map. -/
def resolveColumnTypes (columnTypes : List (String × List String)) :
    List (String × String) :=
  columnTypes.map (fun e => (e.1, resolveColumnType e.2))

/-- The observation set accumulated for a column over a list of observed
values (each `addColumnType` call adds `getSQLiteType value`). -/
def observeTypes (vs : List JValue) : List String :=
  vs.foldl (fun acc v => addTypeObs acc (getSQLiteType v)) []

/-- Membership in the folded observation set. -/
theorem mem_observe_aux (vs : List JValue) (acc : List String) (t : String) :
    t ∈ vs.foldl (fun a v => addTypeObs a (getSQLiteType v)) acc ↔
      t ∈ acc ∨ ∃ v ∈ vs, getSQLiteType v = t := by
  induction vs generalizing acc with
  | nil => simp
  | cons v rest ih =>
    rw [List.foldl_cons, ih]
    unfold addTypeObs
    by_cases h : getSQLiteType v ∈ acc
    · rw [if_pos h]
      constructor
      · rintro (ht | ht)
        · exact Or.inl ht
        · exact Or.inr (by simpa using Or.inr ht)
      · rintro (ht | ht)
        · exact Or.inl ht
        · simp only [List.mem_cons] at ht
          rcases ht with ⟨w, hw | hw, hwt⟩
          · subst hw
            exact Or.inl (hwt ▸ h)
          · exact Or.inr ⟨w, hw, hwt⟩
    · rw [if_neg h]
      constructor
      · rintro (ht | ht)
        · rcases List.mem_append.mp ht with ht | ht
          · exact Or.inl ht
          · simp only [List.mem_singleton] at ht
            exact Or.inr ⟨v, by simp, ht.symm⟩
        · rcases ht with ⟨w, hw, hwt⟩
          exact Or.inr ⟨w, by simp [hw], hwt⟩
      · rintro (ht | ht)
        · exact Or.inl (List.mem_append.mpr (Or.inl ht))
        · rcases ht with ⟨w, hw, hwt⟩
          simp only [List.mem_cons] at hw
          rcases hw with hw | hw
          · subst hw
            exact Or.inl (List.mem_append.mpr (Or.inr (by simp [hwt])))
          · exact Or.inr ⟨w, hw, hwt⟩

/-- Membership in the accumulated observation set is existence of a value
observing that class. -/
theorem mem_observeTypes (vs : List JValue) (t : String) :
    t ∈ observeTypes vs ↔ ∃ v ∈ vs, getSQLiteType v = t := by
  have h := mem_observe_aux vs [] t
  simpa using h

/-- C5: value-to-observation mapping of `getSQLiteType` and the widening
resolution of `resolveColumnTypes` — with more than one observed storage
class, a column resolves to TEXT when any value observed TEXT, else REAL
when any observed REAL, else INTEGER. -/
theorem C5_column_type_resolution :
    getSQLiteType .jnull = "TEXT"
    ∧ getSQLiteType .jundef = "TEXT"
    ∧ (∀ b, getSQLiteType (.jbool b) = "INTEGER")
    ∧ (∀ q : ℚ, q.den = 1 → getSQLiteType (.jnum q) = "INTEGER")
    ∧ (∀ q : ℚ, q.den ≠ 1 → getSQLiteType (.jnum q) = "REAL")
    ∧ (∀ s, getSQLiteType (.jstr s) = "TEXT")
    ∧ (∀ l, getSQLiteType (.jarr l) = "TEXT")
    ∧ (∀ f, getSQLiteType (.jobj f) = "TEXT")
    ∧ (∀ vs : List JValue, 1 < (observeTypes vs).length →
        resolveColumnType (observeTypes vs) =
          if ∃ v ∈ vs, getSQLiteType v = "TEXT" then "TEXT"
          else if ∃ v ∈ vs, getSQLiteType v = "REAL" then "REAL"
          else "INTEGER") := by
  refine ⟨rfl, rfl, fun b => rfl, fun q hq => by simp [getSQLiteType, hq],
    fun q hq => by simp [getSQLiteType, hq], fun s => rfl, fun l => rfl, fun f => rfl, ?_⟩
  intro vs hlen
  unfold resolveColumnType
  rw [if_neg (by omega)]
  by_cases hT : ∃ v ∈ vs, getSQLiteType v = "TEXT"
  · rw [if_pos ((mem_observeTypes vs "TEXT").mpr hT), if_pos hT]
  · have hT' : "TEXT" ∉ observeTypes vs := fun h => hT ((mem_observeTypes vs "TEXT").mp h)
    rw [if_neg hT', if_neg hT]
    by_cases hR : ∃ v ∈ vs, getSQLiteType v = "REAL"
    · rw [if_pos ((mem_observeTypes vs "REAL").mpr hR), if_pos hR]
    · have hR' : "REAL" ∉ observeTypes vs := fun h => hR ((mem_observeTypes vs "REAL").mp h)
      rw [if_neg hR', if_neg hR]

/-- Witness for C5 at concrete values: an integer, a proper fraction, and
a mixed INTEGER/TEXT column resolving per the widening rule. -/
theorem C5_column_type_resolution_witness :
    ((3 : ℚ).den = 1 ∧ getSQLiteType (.jnum (3 : ℚ)) = "INTEGER")
    ∧ ((⟨1, 2, by decide, by decide⟩ : ℚ).den ≠ 1
        ∧ getSQLiteType (.jnum (⟨1, 2, by decide, by decide⟩ : ℚ)) = "REAL")
    ∧ (1 < (observeTypes [.jnum (1 : ℚ), .jstr ['a']]).length
        ∧ resolveColumnType (observeTypes [.jnum (1 : ℚ), .jstr ['a']]) =
            if ∃ v ∈ [JValue.jnum (1 : ℚ), .jstr ['a']], getSQLiteType v = "TEXT" then "TEXT"
            else if ∃ v ∈ [JValue.jnum (1 : ℚ), .jstr ['a']], getSQLiteType v = "REAL" then "REAL"
            else "INTEGER") := by
  have h := C5_column_type_resolution
  refine ⟨⟨by decide, h.2.2.2.1 3 (by decide)⟩,
    ⟨by decide, h.2.2.2.2.1 (⟨1, 2, by decide, by decide⟩ : ℚ) (by decide)⟩,
    ⟨?_, h.2.2.2.2.2.2.2.2 [.jnum (1 : ℚ), .jstr ['a']] ?_⟩⟩
  · decide
  · decide


/-!
DataInsertionEngine: the identity memo of `insertEntityRecord`
(DataInsertionEngine 177-212).  Payload nodes are addressed by `Nat`
references into a `heap`, modelling JavaScript object identity (the
`processedEntities` buckets are `Map`s keyed on the object reference).
The SQL side is abstracted: `mapRow` stands for `mapEntityToSchema`,
`dbInsert` for the `INSERT OR IGNORE` statement, `lastId` for
`SELECT last_insert_rowid()`.
-/

/-- A composed row: column name to value. -/
abbrev Row := List (String × JValue)

/-- JavaScript `Map.get` on a per-table memo keyed by object reference. -/
def memoFind (m : List (Nat × JValue)) (ref : Nat) : Option JValue :=
  match m.find? (fun e => e.1 == ref) with
  | some e => some e.2
  | none => none

/-- JavaScript `Map.set` on the per-table memo. -/
def memoSet : List (Nat × JValue) → Nat → JValue → List (Nat × JValue)
  | [], r, v => [(r, v)]
  | e :: rest, r, v => if e.1 == r then (r, v) :: rest else e :: memoSet rest r v

/-- Lookup of a table's bucket in `processedEntities` (`|| new Map()`). -/
def bucketsFind (buckets : List (String × List (Nat × JValue))) (t : String) :
    List (Nat × JValue) :=
  match buckets.find? (fun e => e.1 == t) with
  | some e => e.2
  | none => []

/-- JavaScript `Map.set` on `processedEntities`. -/
def bucketsSet : List (String × List (Nat × JValue)) → String → List (Nat × JValue) →
    List (String × List (Nat × JValue))
  | [], t, m => [(t, m)]
  | e :: rest, t, m => if e.1 == t then (t, m) :: rest else e :: bucketsSet rest t m

/-- Property read `rowData.id` (undefined when the column is absent). -/
def rowGet (row : Row) (k : String) : JValue :=
  match row.find? (fun e => e.1 == k) with
  | some e => e.2
  | none => (.jundef)

/-- The `insertedId` computation of `insertEntityRecord`: `rowData.id`
when truthy, else `last_insert_rowid() || null`. -/
def effectiveId {σ : Type} (lastId : σ → JValue) (db' : σ) (rowData : Row) : JValue :=
  if truthy (rowGet rowData "id") then rowGet rowData "id"
  else if truthy (lastId db') then lastId db' else .jnull

/-- Result of one `insertEntityRecord` call: the returned surrogate id (if
any), the updated `processedEntities` memo, and the storage state. -/
structure InsertOutcome (σ : Type) where
  returnedId : Option JValue
  memo : List (String × List (Nat × JValue))
  db : σ

/-- Method `insertEntityRecord` (DataInsertionEngine 177-212): memo hit
returns the stored surrogate without touching storage; otherwise the row
is composed and inserted, the effective id read back, and (when truthy)
memoised under the entity's reference. -/
def insertEntityRecord {σ : Type} (dbInsert : σ → String → Row → σ) (lastId : σ → JValue)
    (heap : Nat → JValue) (mapRow : JValue → Row) (entity : Nat) (tableName : String)
    (memo : List (String × List (Nat × JValue))) (db : σ) : InsertOutcome σ :=
  match memoFind (bucketsFind memo tableName) entity with
  | some id => ⟨some id, memo, db⟩
  | none =>
    if (mapRow (heap entity)).isEmpty then ⟨none, memo, db⟩
    else
      if truthy (effectiveId lastId (dbInsert db tableName (mapRow (heap entity)))
          (mapRow (heap entity))) then
        ⟨some (effectiveId lastId (dbInsert db tableName (mapRow (heap entity)))
            (mapRow (heap entity))),
         bucketsSet memo tableName (memoSet (bucketsFind memo tableName) entity
            (effectiveId lastId (dbInsert db tableName (mapRow (heap entity)))
              (mapRow (heap entity)))),
         dbInsert db tableName (mapRow (heap entity))⟩
      else
        ⟨none, memo, dbInsert db tableName (mapRow (heap entity))⟩

/-- Setting then getting a bucket. -/
theorem bucketsFind_bucketsSet (buckets : List (String × List (Nat × JValue)))
    (t : String) (m : List (Nat × JValue)) :
    bucketsFind (bucketsSet buckets t m) t = m := by
  induction buckets with
  | nil => simp [bucketsSet, bucketsFind, List.find?]
  | cons e rest ih =>
    rw [bucketsSet]
    by_cases h : e.1 == t
    · rw [if_pos h]
      simp [bucketsFind, List.find?]
    · rw [if_neg h]
      unfold bucketsFind
      rw [List.find?]
      simp only [Bool.not_eq_true] at h
      rw [h]
      exact ih

/-- Setting then getting a memo entry. -/
theorem memoFind_memoSet (m : List (Nat × JValue)) (r : Nat) (v : JValue) :
    memoFind (memoSet m r v) r = some v := by
  induction m with
  | nil => simp [memoSet, memoFind, List.find?]
  | cons e rest ih =>
    rw [memoSet]
    by_cases h : e.1 == r
    · rw [if_pos h]
      simp [memoFind, List.find?]
    · rw [if_neg h]
      unfold memoFind
      rw [List.find?]
      simp only [Bool.not_eq_true] at h
      rw [h]
      exact ih

/-- C4: entity identity in the insertion memo is by payload object
reference.  A memo hit returns the stored surrogate id and leaves both
the memo and the storage untouched (no second row); a memo miss runs the
insert even when a distinct reference with an identical payload value has
already been inserted (value equality does not merge); and after a fresh
insert whose effective id is truthy, re-running `insertEntityRecord` on
the same reference returns exactly that id, again without touching
storage. -/
theorem C4_identity_memo {σ : Type} (dbInsert : σ → String → Row → σ)
    (lastId : σ → JValue) (heap : Nat → JValue) (mapRow : JValue → Row)
    (t : String) (memo : List (String × List (Nat × JValue))) (db : σ)
    (ref ref' : Nat) :
    (∀ v, memoFind (bucketsFind memo t) ref = some v →
        insertEntityRecord dbInsert lastId heap mapRow ref t memo db = ⟨some v, memo, db⟩)
    ∧ (memoFind (bucketsFind memo t) ref = none →
        (mapRow (heap ref)).isEmpty = false →
        ref ≠ ref' → heap ref = heap ref' →
        (insertEntityRecord dbInsert lastId heap mapRow ref t memo db).db
          = dbInsert db t (mapRow (heap ref)))
    ∧ (memoFind (bucketsFind memo t) ref = none →
        (mapRow (heap ref)).isEmpty = false →
        truthy (effectiveId lastId (dbInsert db t (mapRow (heap ref))) (mapRow (heap ref)))
          = true →
        insertEntityRecord dbInsert lastId heap mapRow ref t
            (insertEntityRecord dbInsert lastId heap mapRow ref t memo db).memo
            (insertEntityRecord dbInsert lastId heap mapRow ref t memo db).db
          = ⟨some (effectiveId lastId (dbInsert db t (mapRow (heap ref))) (mapRow (heap ref))),
             (insertEntityRecord dbInsert lastId heap mapRow ref t memo db).memo,
             (insertEntityRecord dbInsert lastId heap mapRow ref t memo db).db⟩) := by
  refine ⟨?_, ?_, ?_⟩
  · intro v hv
    unfold insertEntityRecord
    rw [hv]
  · intro hmiss hne _ _
    unfold insertEntityRecord
    rw [hmiss]
    simp only [hne, Bool.false_eq_true, if_false]
    by_cases ht : truthy (effectiveId lastId (dbInsert db t (mapRow (heap ref)))
        (mapRow (heap ref))) = true
    · rw [if_pos ht]
    · rw [if_neg ht]
  · intro hmiss hne ht
    have hout : insertEntityRecord dbInsert lastId heap mapRow ref t memo db =
        ⟨some (effectiveId lastId (dbInsert db t (mapRow (heap ref))) (mapRow (heap ref))),
         bucketsSet memo t (memoSet (bucketsFind memo t) ref
            (effectiveId lastId (dbInsert db t (mapRow (heap ref))) (mapRow (heap ref)))),
         dbInsert db t (mapRow (heap ref))⟩ := by
      unfold insertEntityRecord
      rw [hmiss]
      simp only [hne, Bool.false_eq_true, if_false]
      rw [if_pos ht]
    rw [hout]
    unfold insertEntityRecord
    rw [bucketsFind_bucketsSet, memoFind_memoSet]

/-- Witness for C4 at a concrete two-reference heap with value-equal
nodes. -/
theorem C4_identity_memo_witness :
    (memoFind (bucketsFind ([] : List (String × List (Nat × JValue))) "target") 0 = none
      ∧ (([("name", JValue.jstr ['a'])] : Row)).isEmpty = false
      ∧ (0 : Nat) ≠ 1
      ∧ (fun (_ : Nat) => JValue.jobj []) 0 = (fun (_ : Nat) => JValue.jobj []) 1)
    ∧ (insertEntityRecord (σ := Nat) (fun n _ _ => n + 1) (fun n => .jnum n)
        (fun _ => JValue.jobj []) (fun _ => [("name", JValue.jstr ['a'])]) 0 "target"
        [] 5).db = (fun (n : Nat) (_ : String) (_ : Row) => n + 1) 5 "target"
          [("name", JValue.jstr ['a'])] := by
  have h := C4_identity_memo (σ := Nat) (fun n _ _ => n + 1) (fun n => .jnum n)
    (fun _ => JValue.jobj []) (fun _ => [("name", JValue.jstr ['a'])]) "target" [] 5 0 1
  exact ⟨⟨rfl, rfl, by decide, rfl⟩, h.2.1 rfl rfl (by decide) rfl⟩


/-!
Entity classification and type inference.  Both engines carry their own
copy of `isEntity` (textually identical) and their own `inferEntityType`
(which differ): SchemaInferenceEngine.ts 143-201 versus
DataInsertionEngine.ts 306-349.
-/

/-- JavaScript `x !== undefined`. -/
def isDef (v : JValue) : Bool :=
  match v with
  | .jundef => false
  | _ => true

/-- The `typeof name !== 'string'` guard of `sanitizeTableName`, applied
to a raw property value as `inferEntityType` does with `__typename`. -/
def sanitizeTableNameV (rand : JStr) (v : JValue) : JStr :=
  match v with
  | .jstr s => sanitizeTableName rand s
  | _ => "table_".toList ++ rand

/-- String payload of a value (empty for non-strings; only used behind a
string guard). -/
def typeFieldStr (v : JValue) : JStr :=
  match v with
  | .jstr s => s
  | _ => []

/-- Indexing `path[i]` (never out of range at the use sites). -/
def pathAt (path : List JStr) (i : Nat) : JStr := path.getD i []

/-- JavaScript `s.endsWith(pat)`. -/
def endsWithJ (s pat : JStr) : Bool := startsWithJ s.reverse pat.reverse

/-- JavaScript `s.slice(0, -n)`. -/
def sliceDropRight (s : JStr) (n : Nat) : JStr := s.take (s.length - n)

namespace SchemaInferenceEngine

/-- Method `isEntity` (SchemaInferenceEngine 143-157). -/
def isEntity (obj : JValue) : Bool :=
  match obj with
  | .jobj fields =>
      (isDef (objGet obj "id".toList) || isDef (objGet obj "_id".toList)
        || isDef (objGet obj "ensemblId".toList) || isDef (objGet obj "efoId".toList)
        || isDef (objGet obj "chemblId".toList))
      || ((fields.length ≥ 2)
          && (isDef (objGet obj "name".toList) || isDef (objGet obj "approvedSymbol".toList)
              || isDef (objGet obj "description".toList) || isDef (objGet obj "type".toList)
              || isDef (objGet obj "score".toList)))
  | _ => false

/-- The string-`type` discriminator guard of the schema engine: truthy
string not equal (lowercased) to `edges` or `node`. -/
def typeFieldOk (v : JValue) : Bool :=
  match v with
  | .jstr s =>
      !s.isEmpty && !(toLowerJS s == "edges".toList) && !(toLowerJS s == "node".toList)
  | _ => false

/-- The graph-wrapper unwrapping of the path walk (SchemaInferenceEngine
175-186): `node` looks two back (three past `edges`), `edges` and `rows`
look one back. -/
def unwrapLast (path : List JStr) : JStr :=
  let lastName := pathAt path (path.length - 1)
  if lastName == "node".toList && path.length > 1 then
    let l2 := pathAt path (path.length - 2)
    if l2 == "edges".toList && path.length > 2 then pathAt path (path.length - 3) else l2
  else if lastName == "edges".toList && path.length > 1 then pathAt path (path.length - 2)
  else if lastName == "rows".toList && path.length > 1 then pathAt path (path.length - 2)
  else lastName

/-- The singularisation of the schema engine (SchemaInferenceEngine
189-196): `-ies` → `-y`, else strip a final `s` (not `ss`) when enough
remains — applied to the already-sanitised name. -/
def singularize (sanitized : JStr) : JStr :=
  if endsWithJ sanitized "ies".toList then sliceDropRight sanitized 3 ++ "y".toList
  else if endsWithJ sanitized "s".toList && !endsWithJ sanitized "ss".toList
      && sanitized.length > 1 then
    if (sliceDropRight sanitized 1).length > 1 then sliceDropRight sanitized 1 else sanitized
  else sanitized

/-- Method `inferEntityType` (SchemaInferenceEngine 159-201). -/
def inferEntityType (rand : JStr) (obj : JValue) (path : List JStr) : JStr :=
  if truthy (objGet obj "__typename".toList) then
    sanitizeTableNameV rand (objGet obj "__typename".toList)
  else if typeFieldOk (objGet obj "type".toList) then
    sanitizeTableName rand (typeFieldStr (objGet obj "type".toList))
  else if truthy (objGet obj "ensemblId".toList) then "target".toList
  else if truthy (objGet obj "efoId".toList) then "disease".toList
  else if truthy (objGet obj "chemblId".toList) then "drug".toList
  else if truthy (objGet obj "approvedSymbol".toList) then "target".toList
  else if !path.isEmpty then singularize (sanitizeTableName rand (unwrapLast path))
  else "entity_".toList ++ rand

end SchemaInferenceEngine

namespace DataInsertionEngine

/-- Method `isEntity` (DataInsertionEngine 306-320, textually identical
to the schema engine's copy). -/
def isEntity (obj : JValue) : Bool :=
  match obj with
  | .jobj fields =>
      (isDef (objGet obj "id".toList) || isDef (objGet obj "_id".toList)
        || isDef (objGet obj "ensemblId".toList) || isDef (objGet obj "efoId".toList)
        || isDef (objGet obj "chemblId".toList))
      || ((fields.length ≥ 2)
          && (isDef (objGet obj "name".toList) || isDef (objGet obj "approvedSymbol".toList)
              || isDef (objGet obj "description".toList) || isDef (objGet obj "type".toList)
              || isDef (objGet obj "score".toList)))
  | _ => false

/-- The string-`type` guard of the insertion engine: any truthy string —
no `edges`/`node` exclusion (unlike the schema engine). -/
def typeFieldOk (v : JValue) : Bool :=
  match v with
  | .jstr s => !s.isEmpty
  | _ => false

/-- The path walk of the insertion engine (DataInsertionEngine 333-346):
`edges`/`rows` look one back, a plural strips one `s` from the raw
segment before sanitising; there is no `node` unwrapping and no `-ies`
handling. -/
def pathInfer (rand : JStr) (path : List JStr) : JStr :=
  let lastPath := pathAt path (path.length - 1)
  if lastPath == "edges".toList && path.length > 1 then
    sanitizeTableName rand (pathAt path (path.length - 2))
  else if lastPath == "rows".toList && path.length > 1 then
    sanitizeTableName rand (pathAt path (path.length - 2))
  else if endsWithJ lastPath "s".toList && lastPath.length > 1 then
    sanitizeTableName rand (sliceDropRight lastPath 1)
  else sanitizeTableName rand lastPath

/-- Method `inferEntityType` (DataInsertionEngine 322-349). -/
def inferEntityType (rand : JStr) (obj : JValue) (path : List JStr) : JStr :=
  if truthy (objGet obj "__typename".toList) then
    sanitizeTableNameV rand (objGet obj "__typename".toList)
  else if typeFieldOk (objGet obj "type".toList) then
    sanitizeTableName rand (typeFieldStr (objGet obj "type".toList))
  else if truthy (objGet obj "ensemblId".toList) then "target".toList
  else if truthy (objGet obj "efoId".toList) then "disease".toList
  else if truthy (objGet obj "chemblId".toList) then "drug".toList
  else if truthy (objGet obj "approvedSymbol".toList) then "target".toList
  else if !path.isEmpty then pathInfer rand path
  else "entity_".toList ++ rand

end DataInsertionEngine

/-- C3: the two engines classify the payload node
`\x7b id: 1, name: "a" \x7d` under path `["studies"]` as an entity, but
name its type differently — the schema engine singularises the sanitised
segment (`studies` → `study`) while the insertion engine strips the `s`
from the raw segment (`studies` → `studie`).  Insertion looks up
`schemas["studie"]`, finds nothing, and silently skips the row, so the
claimed agreement (and §4.6's "same traversal as C5") fails on the code. -/
theorem C3_entity_type_divergence :
    SchemaInferenceEngine.isEntity
        (JValue.jobj [("id".toList, .jnum 1), ("name".toList, .jstr ['a'])]) = true
    ∧ DataInsertionEngine.isEntity
        (JValue.jobj [("id".toList, .jnum 1), ("name".toList, .jstr ['a'])]) = true
    ∧ SchemaInferenceEngine.inferEntityType "abcdefghi".toList
        (JValue.jobj [("id".toList, .jnum 1), ("name".toList, .jstr ['a'])])
        ["studies".toList] = "study".toList
    ∧ DataInsertionEngine.inferEntityType "abcdefghi".toList
        (JValue.jobj [("id".toList, .jnum 1), ("name".toList, .jstr ['a'])])
        ["studies".toList] = "studie".toList
    ∧ "study".toList ≠ "studie".toList := by
  refine ⟨rfl, rfl, by decide, by decide, by decide⟩


/-!
Junction tables: `recordRelationship` and `createJunctionTableSchemas`
(SchemaInferenceEngine 203-217 and 309-331) and
`insertJunctionTableRecords` (DataInsertionEngine 214-228).
-/

/-- JavaScript string `<` — lexicographic on UTF-16 code units (the
default `Array.prototype.sort` comparison). -/
def strLt : JStr → JStr → Bool
  | [], [] => false
  | [], _ :: _ => true
  | _ :: _, [] => false
  | a :: as, b :: bs => a.toNat < b.toNat || (a = b && strLt as bs)

/-- `[a, b].sort()` for two strings. -/
def sortPair (a b : JStr) : JStr × JStr := if strLt b a then (b, a) else (a, b)

/-- `[fromTable, toTable].sort().join('_')` — the canonical junction
table name. -/
def junctionNameOf (a b : JStr) : JStr :=
  (sortPair a b).1 ++ "_".toList ++ (sortPair a b).2

/-- The `entityRelationships` map: table name to the set (insertion-order
list) of related table names. -/
abbrev RelMap := List (JStr × List JStr)

/-- Map lookup with `|| new Set()`. -/
def relGet (m : RelMap) (k : JStr) : List JStr :=
  match m.find? (fun e => e.1 == k) with
  | some e => e.2
  | none => []

/-- JavaScript `Map.set`. -/
def relSet : RelMap → JStr → List JStr → RelMap
  | [], k, v => [(k, v)]
  | e :: rest, k, v => if e.1 == k then (k, v) :: rest else e :: relSet rest k v

/-- Method `recordRelationship` (SchemaInferenceEngine 203-217):
self-relations are dropped; a directed pair is stored only when neither
direction is present yet. -/
def recordRelationship (m : RelMap) (fromTable toTable : JStr) : RelMap :=
  if fromTable == toTable then m
  else if !(relGet m fromTable).contains toTable
      && !(relGet m toTable).contains fromTable then
    relSet m fromTable (relGet m fromTable ++ [toTable])
  else m

/-- One junction table definition. -/
structure JunctionSchema where
  name : JStr
  columns : List (JStr × String)
  deriving DecidableEq

/-- The three columns of a junction table (SchemaInferenceEngine
320-327). -/
def junctionColumns (fromTable toTable : JStr) : List (JStr × String) :=
  [("id".toList, "INTEGER PRIMARY KEY AUTOINCREMENT"),
   (fromTable ++ "_id".toList, "INTEGER"),
   (toTable ++ "_id".toList, "INTEGER")]

/-- The loop body of `createJunctionTableSchemas`: skip when the
`junctionTables` name set (the names already accumulated) has the
canonical name, otherwise add the schema. -/
def junctionStep (fromTable : JStr) (acc : List JunctionSchema) (toTable : JStr) :
    List JunctionSchema :=
  if acc.any (fun j => j.name == junctionNameOf fromTable toTable) then acc
  else acc ++ [⟨junctionNameOf fromTable toTable, junctionColumns fromTable toTable⟩]

/-- The inner loop of `createJunctionTableSchemas` for one map entry. -/
def addJunctionsFor (fromTable : JStr) (tos : List JStr)
    (acc : List JunctionSchema) : List JunctionSchema :=
  tos.foldl (junctionStep fromTable) acc

/-- Method `createJunctionTableSchemas` (SchemaInferenceEngine 309-331),
restricted to the junction tables it adds. -/
def createJunctionTableSchemas (rels : RelMap) : List JunctionSchema :=
  rels.foldl (fun acc e => addJunctionsFor e.1 e.2 acc) []

/-- JavaScript `s.split('_')`. -/
def splitOnUnd : JStr → List JStr
  | [] => [[]]
  | c :: rest =>
    if c = '_' then [] :: splitOnUnd rest
    else
      match splitOnUnd rest with
      | [] => [[c]]
      | h :: t => (c :: h) :: t

/-- One emitted `INSERT OR IGNORE INTO <junction> (<t1>_id, <t2>_id)`
statement; the ids keep their textual form (`Number` conversion does not
affect the claim). -/
structure JunctionInsert where
  table : JStr
  col1 : JStr
  col2 : JStr
  id1 : JStr
  id2 : JStr
  deriving DecidableEq

/-- Method `insertJunctionTableRecords` (DataInsertionEngine 214-228):
for each relationship key with a schema, the two endpoint column names
come from `relationshipKey.split('_')` — its first two segments. -/
def insertJunctionTableRecords (relationshipData : List (JStr × List JStr))
    (schemaNames : List JStr) : List JunctionInsert :=
  relationshipData.flatMap (fun e =>
    if schemaNames.contains e.1 then
      e.2.map (fun pairKey =>
        ⟨e.1, (splitOnUnd e.1).getD 0 [] ++ "_id".toList,
         (splitOnUnd e.1).getD 1 [] ++ "_id".toList,
         (splitOnUnd pairKey).getD 0 [], (splitOnUnd pairKey).getD 1 []⟩)
    else [])


/-- Strict string order is asymmetric. -/
theorem strLt_asymm (a b : JStr) (h : strLt a b = true) : strLt b a = false := by
  induction a generalizing b with
  | nil =>
    cases b with
    | nil => cases h
    | cons c cs => rfl
  | cons x xs ih =>
    cases b with
    | nil => cases h
    | cons y ys =>
      rw [strLt] at h ⊢
      simp only [Bool.or_eq_true, Bool.and_eq_true, decide_eq_true_eq] at h
      simp only [Bool.or_eq_false_iff, Bool.and_eq_false_iff, decide_eq_false_iff_not]
      rcases h with h | ⟨heq, hlt⟩
      · constructor
        · omega
        · left
          intro hcon
          rw [hcon] at h
          omega
      · subst heq
        exact ⟨by omega, Or.inr (ih ys hlt)⟩

/-- Strict string order is irreflexive. -/
theorem strLt_irrefl (a : JStr) : strLt a a = false := by
  rcases h : strLt a a with _ | _
  · rfl
  · have := strLt_asymm a a h
    rw [this] at h
    cases h

/-- Two mutually non-less strings are equal. -/
theorem strLt_connex (a b : JStr) (h1 : strLt a b = false) (h2 : strLt b a = false) :
    a = b := by
  induction a generalizing b with
  | nil =>
    cases b with
    | nil => rfl
    | cons c cs => cases h1
  | cons x xs ih =>
    cases b with
    | nil => cases h2
    | cons y ys =>
      rw [strLt] at h1 h2
      simp only [Bool.or_eq_false_iff, Bool.and_eq_false_iff, decide_eq_false_iff_not] at h1 h2
      have hxy : x = y := char_eq_of_toNat_eq (by omega)
      subst hxy
      rcases h1.2 with hc | hc
      · exact absurd rfl hc
      · rcases h2.2 with hc2 | hc2
        · exact absurd rfl hc2
        · rw [ih ys hc hc2]

/-- The two-element sort is symmetric. -/
theorem sortPair_comm (a b : JStr) : sortPair a b = sortPair b a := by
  unfold sortPair
  by_cases hba : strLt b a = true
  · rw [if_pos hba, if_neg (by rw [strLt_asymm b a hba]; simp)]
  · by_cases hab : strLt a b = true
    · rw [if_neg hba, if_pos hab]
    · simp only [Bool.not_eq_true] at hba hab
      rw [strLt_connex a b hab hba]

/-- The canonical junction name is direction-independent. -/
theorem junctionNameOf_comm (a b : JStr) : junctionNameOf a b = junctionNameOf b a := by
  unfold junctionNameOf
  rw [sortPair_comm]

/-- A member of a looked-up bucket comes from some entry with that key. -/
theorem relGet_mem (m : RelMap) (k t : JStr) (h : t ∈ relGet m k) :
    ∃ e ∈ m, e.1 = k ∧ t ∈ e.2 := by
  induction m with
  | nil => cases h
  | cons e rest ih =>
    unfold relGet at h
    rw [List.find?] at h
    by_cases he : (e.1 == k) = true
    · rw [he] at h
      exact ⟨e, by simp, by simpa using he, by simpa using h⟩
    · simp only [Bool.not_eq_true] at he
      rw [he] at h
      rcases ih h with ⟨e', he', hk, ht⟩
      exact ⟨e', by simp [he'], hk, ht⟩

/-- Entries after a `Map.set` are old entries or the new binding. -/
theorem mem_relSet (m : RelMap) (k : JStr) (v : List JStr) (e : JStr × List JStr)
    (h : e ∈ relSet m k v) : e ∈ m ∨ e = (k, v) := by
  induction m with
  | nil =>
    rw [relSet] at h
    simp only [List.mem_singleton] at h
    exact Or.inr h
  | cons e0 rest ih =>
    rw [relSet] at h
    by_cases he : (e0.1 == k) = true
    · rw [if_pos he] at h
      rcases List.mem_cons.mp h with rfl | h
      · exact Or.inr rfl
      · exact Or.inl (List.mem_cons_of_mem e0 h)
    · rw [if_neg he] at h
      rcases List.mem_cons.mp h with rfl | h
      · exact Or.inl (List.mem_cons_self _ _)
      · rcases ih h with h | h
        · exact Or.inl (List.mem_cons_of_mem e0 h)
        · exact Or.inr h

/-- Reading back the bucket just set. -/
theorem relGet_relSet_self (m : RelMap) (k : JStr) (v : List JStr) :
    relGet (relSet m k v) k = v := by
  induction m with
  | nil => simp [relSet, relGet, List.find?]
  | cons e rest ih =>
    rw [relSet]
    by_cases h : (e.1 == k) = true
    · rw [if_pos h]
      simp [relGet, List.find?]
    · rw [if_neg h]
      unfold relGet
      rw [List.find?]
      simp only [Bool.not_eq_true] at h
      rw [h]
      exact ih

/-- Other buckets are untouched by a `Map.set`. -/
theorem relGet_relSet_other (m : RelMap) (k k' : JStr) (v : List JStr) (h : k' ≠ k) :
    relGet (relSet m k v) k' = relGet m k' := by
  have h1 : (((k, v) : JStr × List JStr).1 == k') = false := by
    simp only [beq_eq_false_iff_ne]
    exact fun hc => h hc.symm
  induction m with
  | nil =>
    simp only [relSet, relGet, List.find?, h1]
  | cons e rest ih =>
    rw [relSet]
    by_cases he : (e.1 == k) = true
    · rw [if_pos he]
      have he' : e.1 = k := by simpa using he
      have h2 : (e.1 == k') = false := by
        simp only [beq_eq_false_iff_ne]
        intro hc
        exact h (by rw [← hc]; exact he')
      simp only [relGet, List.find?, h1, h2]
    · rw [if_neg he]
      simp only [relGet, List.find?]
      by_cases hk' : (e.1 == k') = true
      · rw [hk']
      · simp only [Bool.not_eq_true] at hk'
        rw [hk']
        exact ih

/-- Recording a relationship only grows the buckets. -/
theorem relGet_record_sub (m : RelMap) (a b k t : JStr) (h : t ∈ relGet m k) :
    t ∈ relGet (recordRelationship m a b) k := by
  unfold recordRelationship
  by_cases hab : (a == b) = true
  · rw [if_pos hab]
    exact h
  · rw [if_neg hab]
    by_cases hc : (!(relGet m a).contains b && !(relGet m b).contains a) = true
    · rw [if_pos hc]
      by_cases hk : k = a
      · subst hk
        rw [relGet_relSet_self]
        exact List.mem_append.mpr (Or.inl h)
      · rw [relGet_relSet_other m a k _ hk]
        exact h
    · rw [if_neg hc]
      exact h

/-- Either direction of a pair being stored. -/
def relRecorded (m : RelMap) (a b : JStr) : Prop :=
  b ∈ relGet m a ∨ a ∈ relGet m b

/-- Recording keeps previously recorded pairs recorded. -/
theorem relRecorded_mono (m : RelMap) (a b x y : JStr) (h : relRecorded m x y) :
    relRecorded (recordRelationship m a b) x y := by
  rcases h with h | h
  · exact Or.inl (relGet_record_sub m a b x y h)
  · exact Or.inr (relGet_record_sub m a b y x h)

/-- After `recordRelationship`, a non-self pair is recorded. -/
theorem relRecorded_record (m : RelMap) (a b : JStr) (hne : a ≠ b) :
    relRecorded (recordRelationship m a b) a b := by
  unfold recordRelationship
  rw [if_neg (by simpa using hne)]
  by_cases hc : (!(relGet m a).contains b && !(relGet m b).contains a) = true
  · rw [if_pos hc]
    left
    rw [relGet_relSet_self]
    exact List.mem_append.mpr (Or.inr (by simp))
  · rw [if_neg hc]
    simp only [Bool.and_eq_true, Bool.not_eq_true', Bool.not_eq_false] at hc
    rw [Decidable.not_and_iff_or_not] at hc
    rcases hc with hc | hc
    · simp only [Bool.not_eq_false] at hc
      exact Or.inl (by simpa using hc)
    · simp only [Bool.not_eq_false] at hc
      exact Or.inr (by simpa using hc)

/-- No bucket contains its own key. -/
def relSane (m : RelMap) : Prop := ∀ e ∈ m, ∀ t ∈ e.2, e.1 ≠ t

/-- Recording preserves `relSane` (self-relations are dropped up front). -/
theorem relSane_record (m : RelMap) (a b : JStr) (hm : relSane m) :
    relSane (recordRelationship m a b) := by
  unfold recordRelationship
  by_cases hab : (a == b) = true
  · rw [if_pos hab]
    exact hm
  · rw [if_neg hab]
    by_cases hc : (!(relGet m a).contains b && !(relGet m b).contains a) = true
    · rw [if_pos hc]
      intro e he t ht
      rcases mem_relSet m a _ e he with he | he
      · exact hm e he t ht
      · subst he
        simp only
        rcases List.mem_append.mp ht with ht | ht
        · rcases relGet_mem m a t ht with ⟨e', he', hk, ht'⟩
          exact hk ▸ hm e' he' t ht'
        · simp only [List.mem_singleton] at ht
          subst ht
          simpa using hab
    · rw [if_neg hc]
      exact hm

/-- Fold of `recordRelationship` over a list of directed pairs, starting
from the empty map (the per-inference state). -/
def buildRels (L : List (JStr × JStr)) : RelMap :=
  L.foldl (fun m p => recordRelationship m p.1 p.2) []

/-- Sanity through the fold. -/
theorem relSane_foldl (L : List (JStr × JStr)) (m : RelMap) (hm : relSane m) :
    relSane (L.foldl (fun m p => recordRelationship m p.1 p.2) m) := by
  induction L generalizing m with
  | nil => exact hm
  | cons p rest ih =>
    rw [List.foldl_cons]
    exact ih _ (relSane_record m p.1 p.2 hm)

/-- Recording through the fold is monotone. -/
theorem relRecorded_foldl_mono (L : List (JStr × JStr)) (m : RelMap) (x y : JStr)
    (h : relRecorded m x y) :
    relRecorded (L.foldl (fun m p => recordRelationship m p.1 p.2) m) x y := by
  induction L generalizing m with
  | nil => exact h
  | cons p rest ih =>
    rw [List.foldl_cons]
    exact ih _ (relRecorded_mono m p.1 p.2 x y h)

/-- A non-self pair of the list ends up recorded, from any start map. -/
theorem relRecorded_foldl_of_mem (L : List (JStr × JStr)) (m : RelMap)
    (p : JStr × JStr) (hp : p ∈ L) (hne : p.1 ≠ p.2) :
    relRecorded (L.foldl (fun m p => recordRelationship m p.1 p.2) m) p.1 p.2 := by
  induction L generalizing m with
  | nil => cases hp
  | cons q rest ih =>
    rw [List.foldl_cons]
    rcases List.mem_cons.mp hp with rfl | hp
    · exact relRecorded_foldl_mono rest _ p.1 p.2 (relRecorded_record m p.1 p.2 hne)
    · exact ih _ hp

/-- Every non-self pair of the input list ends up recorded. -/
theorem relRecorded_buildRels (L : List (JStr × JStr)) (p : JStr × JStr)
    (hp : p ∈ L) (hne : p.1 ≠ p.2) : relRecorded (buildRels L) p.1 p.2 :=
  relRecorded_foldl_of_mem L [] p hp hne


/-- Unfolding `addJunctionsFor` one target at a time. -/
theorem addJunctionsFor_cons (f t : JStr) (ts : List JStr) (acc : List JunctionSchema) :
    addJunctionsFor f (t :: ts) acc = addJunctionsFor f ts (junctionStep f acc t) := rfl

/-- `createJunctionTableSchemas` as its fold. -/
theorem createJunctionTableSchemas_eq (R : RelMap) :
    createJunctionTableSchemas R = R.foldl (fun acc e => addJunctionsFor e.1 e.2 acc) [] :=
  rfl

/-- A step never drops accumulated schemas. -/
theorem mem_junctionStep (f : JStr) (acc : List JunctionSchema) (t : JStr)
    (j : JunctionSchema) (hj : j ∈ acc) : j ∈ junctionStep f acc t := by
  unfold junctionStep
  by_cases hc : (acc.any fun j => j.name == junctionNameOf f t) = true
  · rw [if_pos hc]
    exact hj
  · rw [if_neg hc]
    exact List.mem_append.mpr (Or.inl hj)

/-- The inner fold never drops accumulated schemas. -/
theorem mem_addJunctionsFor_of_mem (f : JStr) (ts : List JStr)
    (acc : List JunctionSchema) (j : JunctionSchema) (hj : j ∈ acc) :
    j ∈ addJunctionsFor f ts acc := by
  induction ts generalizing acc with
  | nil => exact hj
  | cons t rest ih =>
    rw [addJunctionsFor_cons]
    exact ih _ (mem_junctionStep f acc t j hj)

/-- The outer fold never drops accumulated schemas. -/
theorem mem_createFold_of_mem (R : RelMap) (acc : List JunctionSchema)
    (j : JunctionSchema) (hj : j ∈ acc) :
    j ∈ R.foldl (fun acc e => addJunctionsFor e.1 e.2 acc) acc := by
  induction R generalizing acc with
  | nil => exact hj
  | cons e rest ih =>
    rw [List.foldl_cons]
    exact ih _ (mem_addJunctionsFor_of_mem e.1 e.2 acc j hj)

/-- After a step the canonical name is present. -/
theorem name_mem_junctionStep (f : JStr) (acc : List JunctionSchema) (t : JStr) :
    ∃ j ∈ junctionStep f acc t, j.name = junctionNameOf f t := by
  unfold junctionStep
  by_cases hc : (acc.any fun j => j.name == junctionNameOf f t) = true
  · rw [if_pos hc]
    rcases List.any_eq_true.mp hc with ⟨j, hj, hname⟩
    exact ⟨j, hj, by simpa using hname⟩
  · rw [if_neg hc]
    exact ⟨⟨junctionNameOf f t, junctionColumns f t⟩,
      List.mem_append.mpr (Or.inr (by simp)), rfl⟩

/-- After the inner fold every processed target has its schema name. -/
theorem name_mem_addJunctionsFor (f : JStr) (ts : List JStr)
    (acc : List JunctionSchema) (t : JStr) (ht : t ∈ ts) :
    ∃ j ∈ addJunctionsFor f ts acc, j.name = junctionNameOf f t := by
  induction ts generalizing acc with
  | nil => cases ht
  | cons t0 rest ih =>
    rw [addJunctionsFor_cons]
    rcases List.mem_cons.mp ht with rfl | ht
    · rcases name_mem_junctionStep f acc t with ⟨j, hj, hn⟩
      exact ⟨j, mem_addJunctionsFor_of_mem f rest _ j hj, hn⟩
    · exact ih _ ht

/-- After the outer fold every recorded edge has its schema name. -/
theorem name_mem_createFold (R : RelMap) (acc : List JunctionSchema)
    (e : JStr × List JStr) (he : e ∈ R) (t : JStr) (ht : t ∈ e.2) :
    ∃ j ∈ R.foldl (fun acc e => addJunctionsFor e.1 e.2 acc) acc,
      j.name = junctionNameOf e.1 t := by
  induction R generalizing acc with
  | nil => cases he
  | cons e0 rest ih =>
    rw [List.foldl_cons]
    rcases List.mem_cons.mp he with rfl | he
    · rcases name_mem_addJunctionsFor e.1 e.2 acc t ht with ⟨j, hj, hn⟩
      exact ⟨j, mem_createFold_of_mem rest _ j hj, hn⟩
    · exact ih _ he

/-- A step only adds the canonical schema of its edge. -/
theorem mem_junctionStep_src (f : JStr) (acc : List JunctionSchema) (t : JStr)
    (j : JunctionSchema) (hj : j ∈ junctionStep f acc t) :
    j ∈ acc ∨ j = ⟨junctionNameOf f t, junctionColumns f t⟩ := by
  unfold junctionStep at hj
  by_cases hc : (acc.any fun j => j.name == junctionNameOf f t) = true
  · rw [if_pos hc] at hj
    exact Or.inl hj
  · rw [if_neg hc] at hj
    rcases List.mem_append.mp hj with h | h
    · exact Or.inl h
    · exact Or.inr (by simpa using h)

/-- Inner-fold soundness: new schemas come from processed targets. -/
theorem mem_addJunctionsFor_src (f : JStr) (ts : List JStr)
    (acc : List JunctionSchema) (j : JunctionSchema)
    (hj : j ∈ addJunctionsFor f ts acc) :
    j ∈ acc ∨ ∃ t ∈ ts, j = ⟨junctionNameOf f t, junctionColumns f t⟩ := by
  induction ts generalizing acc with
  | nil => exact Or.inl hj
  | cons t rest ih =>
    rw [addJunctionsFor_cons] at hj
    rcases ih _ hj with h | ⟨t0, ht0, hjj⟩
    · rcases mem_junctionStep_src f acc t j h with h | h
      · exact Or.inl h
      · exact Or.inr ⟨t, by simp, h⟩
    · exact Or.inr ⟨t0, by simp [ht0], hjj⟩

/-- Outer-fold soundness: every schema comes from a recorded edge. -/
theorem mem_createFold_src (R : RelMap) (acc : List JunctionSchema)
    (j : JunctionSchema)
    (hj : j ∈ R.foldl (fun acc e => addJunctionsFor e.1 e.2 acc) acc) :
    j ∈ acc ∨ ∃ e ∈ R, ∃ t ∈ e.2, j = ⟨junctionNameOf e.1 t, junctionColumns e.1 t⟩ := by
  induction R generalizing acc with
  | nil => exact Or.inl hj
  | cons e rest ih =>
    rw [List.foldl_cons] at hj
    rcases ih _ hj with h | ⟨e0, he0, t, ht, hjj⟩
    · rcases mem_addJunctionsFor_src e.1 e.2 acc j h with h | ⟨t, ht, hjj⟩
      · exact Or.inl h
      · exact Or.inr ⟨e, by simp, t, ht, hjj⟩
    · exact Or.inr ⟨e0, by simp [he0], t, ht, hjj⟩

/-- A step keeps the schema names duplicate-free (the `junctionTables`
name-set guard). -/
theorem names_junctionStep_nodup (f : JStr) (acc : List JunctionSchema) (t : JStr)
    (h : (acc.map JunctionSchema.name).Nodup) :
    ((junctionStep f acc t).map JunctionSchema.name).Nodup := by
  unfold junctionStep
  by_cases hc : (acc.any fun j => j.name == junctionNameOf f t) = true
  · rw [if_pos hc]
    exact h
  · rw [if_neg hc]
    rw [List.map_append, List.nodup_append]
    refine ⟨h, by simp, ?_⟩
    intro x hx hx2
    simp only [List.map_cons, List.map_nil, List.mem_singleton] at hx2
    rcases List.mem_map.mp hx with ⟨j, hj, hn⟩
    apply hc
    refine List.any_eq_true.mpr ⟨j, hj, ?_⟩
    simp [hn, hx2]

/-- Inner-fold name uniqueness. -/
theorem names_addJunctionsFor_nodup (f : JStr) (ts : List JStr)
    (acc : List JunctionSchema) (h : (acc.map JunctionSchema.name).Nodup) :
    ((addJunctionsFor f ts acc).map JunctionSchema.name).Nodup := by
  induction ts generalizing acc with
  | nil => exact h
  | cons t rest ih =>
    rw [addJunctionsFor_cons]
    exact ih _ (names_junctionStep_nodup f acc t h)

/-- Outer-fold name uniqueness. -/
theorem names_createFold_nodup (R : RelMap) (acc : List JunctionSchema)
    (h : (acc.map JunctionSchema.name).Nodup) :
    ((R.foldl (fun acc e => addJunctionsFor e.1 e.2 acc) acc).map
      JunctionSchema.name).Nodup := by
  induction R generalizing acc with
  | nil => exact h
  | cons e rest ih =>
    rw [List.foldl_cons]
    exact ih _ (names_addJunctionsFor_nodup e.1 e.2 acc h)

/-- Splitting a cons whose head is not an underscore. -/
theorem hasUnd_cons_false (c : Char) (rest : JStr) (h : hasUnd (c :: rest) = false) :
    ¬ c = '_' ∧ hasUnd rest = false := by
  simp only [hasUnd, List.any_cons, Bool.or_eq_false_iff,
    decide_eq_false_iff_not] at h ⊢
  exact h

/-- `split('_')` of an underscore-free string is the singleton. -/
theorem splitOnUnd_undFree (x : JStr) (h : hasUnd x = false) : splitOnUnd x = [x] := by
  induction x with
  | nil => rfl
  | cons c rest ih =>
    rcases hasUnd_cons_false c rest h with ⟨hc, hr⟩
    rw [splitOnUnd, if_neg hc, ih hr]

/-- `split('_')` around a single separator after an underscore-free,
nonempty first component. -/
theorem splitOnUnd_append_und (f u : JStr) (hf : hasUnd f = false) (hfne : f ≠ []) :
    splitOnUnd (f ++ '_' :: u) = f :: splitOnUnd u := by
  induction f with
  | nil => exact absurd rfl hfne
  | cons c f0 ih =>
    rcases hasUnd_cons_false c f0 hf with ⟨hc, hf0⟩
    rw [List.cons_append, splitOnUnd, if_neg hc]
    cases hemp : f0 with
    | nil =>
      rw [List.nil_append]
      rw [splitOnUnd, if_pos rfl]
    | cons d f1 =>
      rw [← hemp, ih hf0 (by rw [hemp]; exact List.cons_ne_nil d f1)]

/-- `split('_')` of a canonical junction name over underscore-free,
nonempty type names recovers the two sorted components. -/
theorem splitOnUnd_junctionNameOf (a b : JStr)
    (ha1 : hasUnd a = false) (ha2 : a ≠ []) (hb1 : hasUnd b = false) (hb2 : b ≠ []) :
    splitOnUnd (junctionNameOf a b) = [(sortPair a b).1, (sortPair a b).2] := by
  have hcomp : ∀ x y : JStr, hasUnd x = false → x ≠ [] → hasUnd y = false →
      splitOnUnd (x ++ "_".toList ++ y) = [x, y] := by
    intro x y hx hxne hy
    have harr : x ++ "_".toList ++ y = x ++ '_' :: y := by
      rw [List.append_assoc]
      rfl
    rw [harr, splitOnUnd_append_und x y hx hxne, splitOnUnd_undFree y hy]
  unfold junctionNameOf sortPair
  by_cases hlt : strLt b a = true
  · rw [if_pos hlt]
    exact hcomp b a hb1 hb2 ha1
  · rw [if_neg hlt]
    exact hcomp a b ha1 ha2 hb1

/-- C6 (amended). Junction naming is direction-independent; over any
inference run (a list of directed `recordRelationship` calls starting
from an empty `entityRelationships` map) `createJunctionTableSchemas`
yields a schema named `sorted.join('_')` for every recorded non-self
pair, with pairwise distinct names, and every schema arises from a
recorded pair of distinct names with the id/fromId/toId columns of
`junctionColumns`; and phase B (`insertJunctionTableRecords`), when the
two type names are nonempty and underscore-free, emits inserts whose
endpoint columns are the sorted components suffixed `_id`. -/
theorem C6_junction_tables_amended (L : List (JStr × JStr)) :
    (∀ a b : JStr, junctionNameOf a b = junctionNameOf b a)
    ∧ (∀ p ∈ L, p.1 ≠ p.2 →
        ∃ j ∈ createJunctionTableSchemas (buildRels L),
          j.name = junctionNameOf p.1 p.2)
    ∧ ((createJunctionTableSchemas (buildRels L)).map JunctionSchema.name).Nodup
    ∧ (∀ j ∈ createJunctionTableSchemas (buildRels L),
        ∃ f t : JStr, f ≠ t ∧ j.name = junctionNameOf f t
          ∧ j.columns = junctionColumns f t)
    ∧ (∀ a b : JStr, ∀ pairs : List JStr, ∀ schemaNames : List JStr,
        hasUnd a = false → a ≠ [] → hasUnd b = false → b ≠ [] →
        schemaNames.contains (junctionNameOf a b) = true →
        ∀ j ∈ insertJunctionTableRecords [(junctionNameOf a b, pairs)] schemaNames,
          j.table = junctionNameOf a b
          ∧ j.col1 = (sortPair a b).1 ++ "_id".toList
          ∧ j.col2 = (sortPair a b).2 ++ "_id".toList) := by
  refine ⟨junctionNameOf_comm, ?_, ?_, ?_, ?_⟩
  · intro p hp hne
    rcases relRecorded_buildRels L p hp hne with h | h
    · rcases relGet_mem _ _ _ h with ⟨e, he, hk, ht⟩
      rw [createJunctionTableSchemas_eq]
      rcases name_mem_createFold (buildRels L) [] e he p.2 ht with ⟨j, hj, hn⟩
      exact ⟨j, hj, by rw [hn, hk]⟩
    · rcases relGet_mem _ _ _ h with ⟨e, he, hk, ht⟩
      rw [createJunctionTableSchemas_eq]
      rcases name_mem_createFold (buildRels L) [] e he p.1 ht with ⟨j, hj, hn⟩
      exact ⟨j, hj, by rw [hn, hk, junctionNameOf_comm]⟩
  · rw [createJunctionTableSchemas_eq]
    exact names_createFold_nodup (buildRels L) [] (by simp)
  · intro j hj
    rw [createJunctionTableSchemas_eq] at hj
    rcases mem_createFold_src (buildRels L) [] j hj with h | ⟨e, he, t, ht, hjj⟩
    · cases h
    · have hsane : relSane (buildRels L) := relSane_foldl L [] (fun e he => by cases he)
      exact ⟨e.1, t, hsane e he t ht, by rw [hjj], by rw [hjj]⟩
  · intro a b pairs schemaNames ha1 ha2 hb1 hb2 hs j hj
    unfold insertJunctionTableRecords at hj
    simp only [List.flatMap_cons, List.flatMap_nil, List.append_nil] at hj
    rw [if_pos hs] at hj
    rcases List.mem_map.mp hj with ⟨pk, hpk, hje⟩
    subst hje
    rw [splitOnUnd_junctionNameOf a b ha1 ha2 hb1 hb2]
    exact ⟨rfl, rfl, rfl⟩


/-- Witness for the amended C6 claim at the pair target/disease: the
schema named disease_target exists and the phase-B inserts carry
disease_id/target_id. -/
theorem C6_junction_tables_amended_witness :
    (∃ j ∈ createJunctionTableSchemas
        (buildRels [("target".toList, "disease".toList)]),
      j.name = junctionNameOf "target".toList "disease".toList)
    ∧ ∀ j ∈ insertJunctionTableRecords
        [(junctionNameOf "target".toList "disease".toList, ["1_2".toList])]
        [junctionNameOf "target".toList "disease".toList],
      j.table = junctionNameOf "target".toList "disease".toList
      ∧ j.col1 = (sortPair "target".toList "disease".toList).1 ++ "_id".toList
      ∧ j.col2 = (sortPair "target".toList "disease".toList).2 ++ "_id".toList := by
  constructor
  · exact (C6_junction_tables_amended [("target".toList, "disease".toList)]).2.1
      ("target".toList, "disease".toList) (by simp) (by decide)
  · exact (C6_junction_tables_amended [("target".toList, "disease".toList)]).2.2.2.2
      "target".toList "disease".toList ["1_2".toList]
      [junctionNameOf "target".toList "disease".toList]
      (by decide) (by decide) (by decide) (by decide) (by decide)

/-- C6 counterexample: for the (reachable) type names `a_b` and `c` the
junction table is named `a_b_c` with endpoint columns `a_b_id`/`c_id`,
but phase B splits the junction name at underscores and emits the column
names `a_id`/`b_id` — not the lexicographically ordered type names the
claim specifies (the insert then fails against the created schema). -/
theorem C6_counterexample :
    junctionNameOf "a_b".toList "c".toList = "a_b_c".toList
    ∧ (createJunctionTableSchemas (recordRelationship [] "a_b".toList "c".toList)).map
        (fun j => (j.name, j.columns)) =
      [("a_b_c".toList, junctionColumns "a_b".toList "c".toList)]
    ∧ (insertJunctionTableRecords [("a_b_c".toList, ["1_2".toList])]
        ["a_b_c".toList]).map (fun j => (j.col1, j.col2)) =
      [("a_id".toList, "b_id".toList)]
    ∧ ("a_id".toList, "b_id".toList) ≠ ("a_b_id".toList, "c_id".toList) := by
  refine ⟨by decide, by decide, by decide, by decide⟩

end OTMS
